import Mathlib

/-! JA3 / JA3S fingerprinting: the server parser, the marshaler and the accessors.

A shallow embedding of `ja3s_parser.go`, `ja3s.go` and the accessors of `ja3.go`.

* A Go `[]byte` is a `List Byte`; a Go `string` is the sequence of its bytes.
* `uint16` / `uint32` values are natural numbers; every place where the Go
  arithmetic can wrap carries an explicit `% 2 ^ w`.
* A method with receiver `j *JA3S` that returns `error` becomes a function
  from the object to the updated object paired with `Option ParseError`.
* An index or slice expression that Go would abort with a run-time panic
  yields `Exec.panic`; a loop that never leaves yields `Exec.hang`.
-/

namespace JA3

/-- One octet of a Go byte slice. -/
abbrev Byte := Fin 256

/-- Outcome of running a piece of Go code: it returns a value, it aborts with
an index-out-of-range panic, or it does not come back at all. -/
inductive Exec (α : Type) where
  | ret (a : α)
  | panic
  | hang
  deriving DecidableEq, Repr

namespace Exec

/-- Sequencing: a panic or a hang of the first part is the outcome of the whole. -/
def bind {α β : Type} (x : Exec α) (f : α → Exec β) : Exec β :=
  match x with
  | ret a => f a
  | panic => panic
  | hang => hang

instance : Monad Exec where
  pure := ret
  bind := bind

end Exec

/-- Modelled from the spec: the error kinds of section 7; their declaration is in a
file of the package that is not among the sources. -/
inductive ErrType where
  | LengthErr
  | ContentTypeErr
  | VersionErr
  | HandshakeTypeErr
  deriving DecidableEq, Repr

/-- Modelled from the spec: `ParseError` carries the error kind and the checkpoint
identifier (section 7); the composite literal `ParseError{errType: k}` leaves the
checkpoint at its zero value. -/
structure ParseError where
  errType : ErrType
  check : Nat
  deriving DecidableEq, Repr

/-- Modelled from the spec: the parsing constants are declared in the client parser
file, which is not among the sources. Record header: content type, 2-byte version,
2-byte length (section 4.1). -/
@[simp] abbrev recordLayerHeaderLen : Nat := 5

/-- Modelled from the spec: handshake type, 3-byte length and the 2-byte hello
version, so that the session-id length sits at offset 6 + 32 = 38. -/
@[simp] abbrev handshakeHeaderLen : Nat := 6

/-- Modelled from the spec: the fixed 32-byte random field (section 4.3). -/
@[simp] abbrev randomDataLen : Nat := 32

/-- Modelled from the spec: the 1-byte session-id length prefix (section 4.3). -/
@[simp] abbrev sessionIDHeaderLen : Nat := 1

/-- Modelled from the spec: the 2-byte cipher-suite id of a Server Hello. -/
@[simp] abbrev cipherSuiteHeaderLen : Nat := 2

/-- Modelled from the spec: the 1-byte compression-method selector. -/
@[simp] abbrev compressMethodHeaderLen : Nat := 1

/-- Modelled from the spec: the 2-byte extensions-block length (section 4.4). -/
@[simp] abbrev extensionsHeaderLen : Nat := 2

/-- Modelled from the spec: 2-byte extension type and 2-byte extension length. -/
@[simp] abbrev extensionHeaderLen : Nat := 4

/-- Modelled from the spec: content type Handshake (22). -/
@[simp] abbrev contentType : Nat := 22

/-- Modelled from the spec: handshake type Server Hello (2). -/
@[simp] abbrev serverHelloHandshakeType : Nat := 2

/-- Modelled from the spec: mask of the SSL3.x-family version pattern. -/
@[simp] abbrev tlsVersionBitmask : Nat := 0xFFFC

/-- Modelled from the spec: the TLS 1.3 version constant. -/
@[simp] abbrev tls13 : Nat := 0x0304

/-- Modelled from the spec: mask applied to an extension type before the comparison
with the GREASE pattern `0x0A0A`. -/
@[simp] abbrev greaseBitmask : Nat := 0x0F0F

/-- Modelled from the spec: the ASCII dash that joins list entries. -/
abbrev dashByte : Byte := 45

/-- Modelled from the spec: the ASCII comma that separates fields. -/
abbrev commaByte : Byte := 44

/-- The struct `JA3S`. A nil byte slice is `none`; the unset hash is the empty string. -/
structure JA3S where
  version : Nat := 0
  cipherSuite : Nat := 0
  extensions : List Nat := []
  ja3SByteString : Option (List Byte) := none
  ja3SHash : List Byte := []
  deriving DecidableEq, Repr

/-- The index expression `s[i]`: panics when `i` is not below `len(s)`. -/
def index (s : List Byte) (i : Nat) : Exec Byte :=
  match s[i]? with
  | some b => .ret b
  | none => .panic

/-- The slice expression `s[n:]`: panics when `n` exceeds `len(s)`. -/
def sliceFrom (s : List Byte) (n : Nat) : Exec (List Byte) :=
  if n ≤ s.length then .ret (s.drop n) else .panic

/-- The slice expression `s[:n]` on a slice whose capacity equals its length. -/
def sliceTo (s : List Byte) (n : Nat) : Exec (List Byte) :=
  if n ≤ s.length then .ret (s.take n) else .panic

/-- The expression `uint16(a)<<8 | uint16(b)`. -/
def u16 (a b : Byte) : Nat := (a.val <<< 8 ||| b.val) % 2 ^ 16

/-- The expression `uint32(a)<<16 | uint32(b)<<8 | uint32(c)`. -/
def u24 (a b c : Byte) : Nat := (a.val <<< 16 ||| b.val <<< 8 ||| c.val) % 2 ^ 32

/-- The `for len(exs) > 0` loop of `parseExtensions`, one iteration per unit of
fuel. The result is the local `extensions` when the loop is left by its condition
or by `break`, and the error when it is left by `return`. -/
def parseExtensionsLoop : Nat → List Byte → List Nat → Exec (Except ParseError (List Nat))
  | 0, _, _ => .hang
  | fuel + 1, exs, extensions =>
    if exs.length > 0 then
      if exs.length < extensionHeaderLen then
        .ret (.error ⟨.LengthErr, 11⟩)
      else do
        let e0 ← index exs 0
        let e1 ← index exs 1
        let exType := u16 e0 e1
        let e2 ← index exs 2
        let e3 ← index exs 3
        let exLen := u16 e2 e3
        let extensions :=
          if exType &&& greaseBitmask ≠ 0x0A0A then extensions ++ [exType] else extensions
        if exs.length < extensionHeaderLen + exLen then
          .ret (.ok extensions)
        else do
          let exs ← sliceFrom exs ((4 + exLen) % 2 ^ 16)
          parseExtensionsLoop fuel exs extensions
    else
      .ret (.ok extensions)

/-- The method `parseExtensions`. An iteration that goes on either shortens `exs` or leaves
it as it is, and in the second case the loop repeats for ever; `len(exs) + 1`
units of fuel therefore decide the loop (`parseExtensionsLoop_fuel_exact`). -/
def parseExtensions (j : JA3S) (exs : List Byte) : Exec (JA3S × Option ParseError) :=
  if exs.length = 0 then
    .ret (j, none)
  else if exs.length < extensionsHeaderLen then
    .ret (j, some ⟨.LengthErr, 9⟩)
  else do
    let e0 ← index exs 0
    let e1 ← index exs 1
    let exsLen := u16 e0 e1
    let exs ← sliceFrom exs extensionsHeaderLen
    if exs.length < exsLen then
      .ret (j, some ⟨.LengthErr, 10⟩)
    else do
      let r ← parseExtensionsLoop (exs.length + 1) exs []
      match r with
      | .error e => .ret (j, some e)
      | .ok extensions => .ret ({ j with extensions := extensions }, none)

/-- The method `parseHandshake`. -/
def parseHandshake (j : JA3S) (hs : List Byte) : Exec (JA3S × Option ParseError) :=
  if hs.length < handshakeHeaderLen + randomDataLen + sessionIDHeaderLen then
    .ret (j, some ⟨.LengthErr, 3⟩)
  else do
    let handshType ← index hs 0
    if handshType.val ≠ serverHelloHandshakeType then
      .ret (j, some ⟨.HandshakeTypeErr, 0⟩)
    else do
      let h1 ← index hs 1
      let h2 ← index hs 2
      let h3 ← index hs 3
      let handshakeLen := u24 h1 h2 h3
      let rest ← sliceFrom hs 4
      if rest.length < handshakeLen then
        .ret (j, some ⟨.LengthErr, 4⟩)
      else do
        let hs ← sliceTo hs ((handshakeLen + 4) % 2 ^ 32)
        if hs.length < handshakeHeaderLen then
          .ret (j, some ⟨.LengthErr, 500⟩)
        else do
          let h4 ← index hs 4
          let h5 ← index hs 5
          let tlsVersion := u16 h4 h5
          if tlsVersion &&& tlsVersionBitmask ≠ 0x0300 ∧ tlsVersion ≠ tls13 then
            .ret (j, some ⟨.VersionErr, 2⟩)
          else do
            let j := { j with version := tlsVersion }
            let sessionIDLen ← index hs 38
            if hs.length < handshakeHeaderLen + randomDataLen + sessionIDHeaderLen
                + sessionIDLen.val then
              .ret (j, some ⟨.LengthErr, 5⟩)
            else do
              let cs ← sliceFrom hs
                (handshakeHeaderLen + randomDataLen + sessionIDHeaderLen + sessionIDLen.val)
              if cs.length < cipherSuiteHeaderLen then
                .ret (j, some ⟨.LengthErr, 6⟩)
              else do
                let c0 ← index cs 0
                let c1 ← index cs 1
                let j := { j with cipherSuite := u16 c0 c1 }
                if cs.length < cipherSuiteHeaderLen + compressMethodHeaderLen then
                  .ret (j, some ⟨.LengthErr, 8⟩)
                else do
                  let exs ← sliceFrom cs (cipherSuiteHeaderLen + compressMethodHeaderLen)
                  parseExtensions j exs

/-- The method `parseSegment`. -/
def parseSegment (j : JA3S) (segment : List Byte) : Exec (JA3S × Option ParseError) :=
  if segment.length < recordLayerHeaderLen then
    .ret (j, some ⟨.LengthErr, 1⟩)
  else do
    let contType ← index segment 0
    if contType.val ≠ contentType then
      .ret (j, some ⟨.ContentTypeErr, 0⟩)
    else do
      let s1 ← index segment 1
      let s2 ← index segment 2
      let tlsRecordVersion := u16 s1 s2
      if tlsRecordVersion &&& tlsVersionBitmask ≠ 0x0300 ∧ tlsRecordVersion ≠ tls13 then
        .ret (j, some ⟨.VersionErr, 1⟩)
      else do
        let hs ← sliceFrom segment recordLayerHeaderLen
        parseHandshake j hs

/-- The function `ComputeJA3SFromSegment`: a fresh object, parsed in place, returned
together with the error. -/
def ComputeJA3SFromSegment (payload : List Byte) : Exec (JA3S × Option ParseError) :=
  parseSegment {} payload

/-- The ASCII digit `'0' + byte(d)`. -/
def digitByte (d : Nat) : Byte := ⟨(48 + d) % 256, Nat.mod_lt _ (by decide)⟩

/-- The digit loop behind `strconv.AppendUint(dst, u, 10)` (library code, modelled):
while `u >= 10` the digit `u % 10` is written in front of what is already there and
`u` becomes `u / 10`; the last digit is `u` itself. One iteration per unit of fuel. -/
def formatBits : Nat → Nat → List Byte → List Byte
  | 0, _, a => a
  | fuel + 1, u, a =>
    if u ≥ 10 then formatBits fuel (u / 10) (digitByte (u % 10) :: a)
    else digitByte u :: a

/-- The call `strconv.AppendUint(dst, i, 10)`. The loop runs once per decimal digit,
so `i + 1` iterations are more than it needs. -/
def appendUint (dst : List Byte) (i : Nat) : List Byte := dst ++ formatBits (i + 1) i []

/-- The method `marshalJA3S`. The capacity given to `make` has no effect on the bytes
written and is left out. -/
def marshalJA3S (j : JA3S) : JA3S :=
  let byteString : List Byte := []
  let byteString := appendUint byteString j.version
  let byteString := byteString ++ [commaByte]
  let byteString := appendUint byteString j.cipherSuite
  let byteString := byteString ++ [commaByte]
  let byteString :=
    if j.extensions.length ≠ 0 then
      let byteString :=
        j.extensions.foldl (fun bs val => appendUint bs val ++ [dashByte]) byteString
      byteString.take (byteString.length - 1)
    else byteString
  { j with ja3SByteString := some byteString }

/-- The method `GetJA3SByteString`: the returned slice (nil is `none`) and the object
after the call. -/
def GetJA3SByteString (j : JA3S) : Option (List Byte) × JA3S :=
  let j := if j.ja3SByteString = none then marshalJA3S j else j
  (j.ja3SByteString, j)

/-- The bytes held by a slice; a nil slice holds none. -/
def bytesOf (s : Option (List Byte)) : List Byte := s.getD []

/-- The method `GetJA3SString`: the conversion `string(b)` copies the bytes. -/
def GetJA3SString (j : JA3S) : List Byte × JA3S :=
  let r := GetJA3SByteString j
  (bytesOf r.1, r.2)

/-- The table `"0123456789abcdef"` of `encoding/hex`. -/
def hextable : List Byte :=
  [48, 49, 50, 51, 52, 53, 54, 55, 56, 57, 97, 98, 99, 100, 101, 102]

/-- The function `hex.EncodeToString` (library code, modelled): two table entries per byte,
high nibble first. -/
def hexEncode : List Byte → List Byte
  | [] => []
  | v :: src => hextable.getD (v.val >>> 4) 48 :: hextable.getD (v.val &&& 0x0f) 48 :: hexEncode src

/-- The method `GetJA3Hash`. The digest function `md5.Sum` is library code and is taken as
a parameter. -/
def GetJA3Hash (md5Sum : List Byte → List Byte) (j : JA3S) : List Byte × JA3S :=
  if j.ja3SHash = [] then
    let r := GetJA3SByteString j
    let h := md5Sum (bytesOf r.1)
    let j := { r.2 with ja3SHash := hexEncode h }
    (j.ja3SHash, j)
  else
    (j.ja3SHash, j)

/-! ## The client object and its accessors (`ja3.go`) -/

set_option linter.dupNamespace false

/-- The struct `JA3`. The nil slices `sni` and `ja3ByteString` are `none`; the unset strings
are empty. -/
structure JA3 where
  version : Nat := 0
  cipherSuites : List Nat := []
  extensions : List Nat := []
  ellipticCurves : List Nat := []
  ellipticCurvePF : List Nat := []
  sni : Option (List Byte) := none
  ja3ByteString : Option (List Byte) := none
  ja3String : List Byte := []
  ja3Hash : List Byte := []
  deriving DecidableEq, Repr

/-- Modelled from the spec: the method `marshalJA3` is declared in the client parser file, which
is not among the sources. It is taken as storing in `ja3ByteString` a byte string that is a
function `canon` of the raw fields (section 4.5), and as touching nothing else. -/
def JA3.marshalJA3
    (canon : Nat → List Nat → List Nat → List Nat → List Nat → Option (List Byte) → List Byte)
    (j : JA3) : JA3 :=
  let byteString :=
    canon j.version j.cipherSuites j.extensions j.ellipticCurves j.ellipticCurvePF j.sni
  { j with ja3ByteString := some byteString }

/-- The method `JA3.GetJA3ByteString`: the returned slice and the object after the call. -/
def JA3.GetJA3ByteString
    (canon : Nat → List Nat → List Nat → List Nat → List Nat → Option (List Byte) → List Byte)
    (j : JA3) : Option (List Byte) × JA3 :=
  let j := if j.ja3ByteString = none then j.marshalJA3 canon else j
  (j.ja3ByteString, j)

/-- The method `JA3.GetJA3String`. -/
def JA3.GetJA3String
    (canon : Nat → List Nat → List Nat → List Nat → List Nat → Option (List Byte) → List Byte)
    (j : JA3) : List Byte × JA3 :=
  if j.ja3String = [] then
    let r := j.GetJA3ByteString canon
    let j := { r.2 with ja3String := bytesOf r.1 }
    (j.ja3String, j)
  else
    (j.ja3String, j)

/-- The method `JA3.GetJA3Hash`; `md5.Sum` is a parameter as for the server object. -/
def JA3.GetJA3Hash
    (canon : Nat → List Nat → List Nat → List Nat → List Nat → Option (List Byte) → List Byte)
    (md5Sum : List Byte → List Byte) (j : JA3) : List Byte × JA3 :=
  if j.ja3Hash = [] then
    let r := j.GetJA3ByteString canon
    let h := md5Sum (bytesOf r.1)
    let j := { r.2 with ja3Hash := hexEncode h }
    (j.ja3Hash, j)
  else
    (j.ja3Hash, j)

/-- The method `JA3.GetSNI`: the conversion `string(j.sni)`; the object is not written. -/
def JA3.GetSNI (j : JA3) : List Byte × JA3 := (bytesOf j.sni, j)

/-! ## Specification-side definitions -/

/-- Decimal rendering as the specification words it: base 10, most significant digit
first, no leading zeros, and the single digit `0` for zero. -/
def decimal (n : Nat) : List Byte :=
  if n = 0 then [48] else ((Nat.digits 10 n).reverse).map digitByte

/-- The canonical JA3S string as the specification words it: the three fields separated by
commas, the extension list joined by dashes. -/
def canonicalJA3S (version cipherSuite : Nat) (extensions : List Nat) : List Byte :=
  decimal version ++ [commaByte] ++ decimal cipherSuite ++ [commaByte]
    ++ List.intercalate [dashByte] (extensions.map decimal)

/-! ## Sequences of accessor calls -/

/-- The three accessors of a `JA3S` object. -/
inductive Accessor where
  | byteString
  | string
  | hash
  deriving DecidableEq, Repr

/-- One accessor call: the bytes of the returned value and the object after the call. -/
def callAccessor (md5Sum : List Byte → List Byte) (j : JA3S) : Accessor → List Byte × JA3S
  | .byteString => (bytesOf (GetJA3SByteString j).1, (GetJA3SByteString j).2)
  | .string => GetJA3SString j
  | .hash => GetJA3Hash md5Sum j

/-- A sequence of accessor calls on one object, each call on the object the previous call left:
the list of the calls with the values they returned. -/
def callAll (md5Sum : List Byte → List Byte) : JA3S → List Accessor → List (Accessor × List Byte)
  | _, [] => []
  | j, a :: rest =>
    (a, (callAccessor md5Sum j a).1) :: callAll md5Sum (callAccessor md5Sum j a).2 rest

/-- The object left by a sequence of accessor calls. -/
def callAllState (md5Sum : List Byte → List Byte) : JA3S → List Accessor → JA3S
  | j, [] => j
  | j, a :: rest => callAllState md5Sum (callAccessor md5Sum j a).2 rest

/-- The four accessors of a `JA3` object. -/
inductive ClientAccessor where
  | byteString
  | string
  | hash
  | sni
  deriving DecidableEq, Repr

/-- One accessor call on a `JA3` object: the bytes of the returned value and the object after
the call. -/
def callClientAccessor
    (canon : Nat → List Nat → List Nat → List Nat → List Nat → Option (List Byte) → List Byte)
    (md5Sum : List Byte → List Byte) (j : JA3) : ClientAccessor → List Byte × JA3
  | .byteString => (bytesOf (j.GetJA3ByteString canon).1, (j.GetJA3ByteString canon).2)
  | .string => j.GetJA3String canon
  | .hash => j.GetJA3Hash canon md5Sum
  | .sni => j.GetSNI

/-- A sequence of accessor calls on one `JA3` object: the calls with the values returned. -/
def callAllClient
    (canon : Nat → List Nat → List Nat → List Nat → List Nat → Option (List Byte) → List Byte)
    (md5Sum : List Byte → List Byte) : JA3 → List ClientAccessor → List (ClientAccessor × List Byte)
  | _, [] => []
  | j, a :: rest =>
    (a, (callClientAccessor canon md5Sum j a).1)
      :: callAllClient canon md5Sum (callClientAccessor canon md5Sum j a).2 rest

/-- The value each client accessor is to return: the canonical string `k` for the two string
accessors, the digest text `h` for the hash accessor, the server name `s` for `GetSNI`. -/
def clientValue (k h s : List Byte) : ClientAccessor → List Byte
  | .byteString => k
  | .string => k
  | .hash => h
  | .sni => s

/-! ## The wire format of a Server Hello record -/

/-- The low eight bits of a number as a byte. -/
def toByte (n : Nat) : Byte := ⟨n % 256, Nat.mod_lt _ (by decide)⟩

/-- Two bytes, big-endian. -/
def be16 (n : Nat) : List Byte := [toByte (n / 256), toByte n]

/-- Three bytes, big-endian. -/
def be24 (n : Nat) : List Byte := [toByte (n / 65536), toByte (n / 256), toByte n]

/-- One extension entry: 2-byte type, 2-byte payload length, payload. -/
def encodeExtension (e : Nat × List Byte) : List Byte :=
  be16 e.1 ++ be16 e.2.length ++ e.2

/-- The entries of an extension list one after the other, in list order. -/
def encodeExtensions : List (Nat × List Byte) → List Byte
  | [] => []
  | e :: es => encodeExtension e ++ encodeExtensions es

/-- The region handed to the extension walker: the 2-byte block length and the entries. -/
def encodeExtensionBlock (es : List (Nat × List Byte)) : List Byte :=
  be16 (encodeExtensions es).length ++ encodeExtensions es

/-- The Server Hello body: hello version, random, session id with its length byte, cipher
suite, compression method, extension block. -/
def helloBody (v : Nat) (random sid : List Byte) (c : Nat) (compression : Byte)
    (es : List (Nat × List Byte)) : List Byte :=
  be16 v ++ random ++ [toByte sid.length] ++ sid ++ be16 c ++ [compression]
    ++ encodeExtensionBlock es

/-- A whole record: record header (22, record version, record length), handshake header
(type 2, 3-byte body length), hello body. -/
def serverHelloRecord (recordVersion recordLen v : Nat) (random sid : List Byte) (c : Nat)
    (compression : Byte) (es : List (Nat × List Byte)) : List Byte :=
  [22] ++ be16 recordVersion ++ be16 recordLen ++ [2]
    ++ be24 (helloBody v random sid c compression es).length
    ++ helloBody v random sid c compression es

/-- The extension types that stay in the list: those that do not match the GREASE pattern
under the mask `0x0F0F`. -/
def dropGrease (types : List Nat) : List Nat :=
  types.filter (fun t => decide (t &&& 0x0F0F ≠ 0x0A0A))

/-! ## Concrete inputs -/

/-- A 44-byte segment: record header (22, 0x0303, 39), handshake header (type 2, declared
length 2), hello version 0x0303 and 33 further zero bytes. -/
def shortDeclaredLengthSegment : List Byte :=
  [22, 3, 3, 0, 39, 2, 0, 0, 2, 3, 3] ++ List.replicate 33 0

/-- The sixteen GREASE values: both bytes equal, low nibble `0xA`. -/
def greaseValues : List Nat :=
  [0x0A0A, 0x1A1A, 0x2A2A, 0x3A3A, 0x4A4A, 0x5A5A, 0x6A6A, 0x7A7A,
   0x8A8A, 0x9A9A, 0xAAAA, 0xBABA, 0xCACA, 0xDADA, 0xEAEA, 0xFAFA]

/-- The extension types the walker meets in a region, in the order it meets them: the type
of each entry header the loop reads, following the same steps as `parseExtensionsLoop`. -/
def typesMet : Nat → List Byte → List Nat
  | fuel + 1, a :: b :: c :: d :: rest =>
    u16 a b ::
      (if rest.length < u16 c d then []
       else typesMet fuel ((a :: b :: c :: d :: rest).drop ((4 + u16 c d) % 2 ^ 16)))
  | _, _ => []

/-- A 44-byte segment whose Server Hello announces a 5-byte session id and ends right after
the session-id length byte. -/
def missingSessionIDSegment : List Byte :=
  [22, 3, 3, 0, 39, 2, 0, 0, 35, 3, 3] ++ List.replicate 32 0 ++ [5]

/-- A 46-byte segment whose Server Hello ends right after the cipher suite 0x1301. -/
def missingCompressionSegment : List Byte :=
  [22, 3, 3, 0, 41, 2, 0, 0, 37, 3, 3] ++ List.replicate 32 0 ++ [0, 0x13, 0x01]

/-- A 65585-byte segment: a Server Hello record whose single extension (type 43) declares
a payload of 65532 bytes and carries all of them, so that the extension region is 65536
bytes long. -/
def wrappingExtensionSegment : List Byte :=
  serverHelloRecord 771 0 771 (List.replicate 32 0) [] 4865 0 [(43, List.replicate 65532 0)]

/-- The walk over an extension region in the words of the specification: stepping over
complete (type, length, payload) entries, is a position reached at which 1, 2 or 3 bytes
remain? The walk ends without reaching one when nothing remains or when the entry at the
current position is not complete. One step per unit of fuel. -/
def reachesShortTail : Nat → List Byte → Bool
  | _, [] => false
  | _, [_] => true
  | _, [_, _] => true
  | _, [_, _, _] => true
  | 0, _ :: _ :: _ :: _ :: _ => false
  | fuel + 1, _ :: _ :: c :: d :: rest =>
    if rest.length < c.val * 256 + d.val then false
    else reachesShortTail fuel (rest.drop (c.val * 256 + d.val))

/-- The values the local `byteString` of `marshalJA3S` takes inside the extension loop, in
order: after each `strconv.AppendUint` and after each appended dash. -/
def marshalLoopStates : List Byte → List Nat → List (List Byte)
  | _, [] => []
  | bs, val :: rest =>
    appendUint bs val :: (appendUint bs val ++ [dashByte])
      :: marshalLoopStates (appendUint bs val ++ [dashByte]) rest

/-- Every value the local `byteString` of `marshalJA3S` takes, statement by statement: empty,
after the version, after the first comma, after the cipher suite, after the second comma, the
values inside the loop, and the stored string after the removal of the last dash. -/
def marshalStates (j : JA3S) : List (List Byte) :=
  let s0 : List Byte := []
  let s1 := appendUint s0 j.version
  let s2 := s1 ++ [commaByte]
  let s3 := appendUint s2 j.cipherSuite
  let s4 := s3 ++ [commaByte]
  [s0, s1, s2, s3, s4] ++ marshalLoopStates s4 j.extensions
    ++ [bytesOf (marshalJA3S j).ja3SByteString]

/-- An object whose version, cipher suite and two extensions are five-digit numbers. -/
def fiveDigitObject : JA3S :=
  { version := 65535, cipherSuite := 65535, extensions := [65535, 65281] }

/-! ## Auxiliary definitions used in the proofs -/

/-- The effect of one loop iteration on the local `extensions`: the type is appended
unless it matches the GREASE pattern under the mask. -/
def keepType (extensions : List Nat) (exType : Nat) : List Nat :=
  if exType &&& greaseBitmask ≠ 0x0A0A then extensions ++ [exType] else extensions

/-- The byte `b[i]` as a number (0 when there is no such byte). -/
def byteAt (b : List Byte) (i : Nat) : Nat := (b.getD i 0).val

/-- The object `parseHandshake` leaves behind when it stops with error `e` on the
handshake buffer `hs`, starting from `j`: nothing is written before the hello version
is accepted, the version is written before checkpoints 5 and 6, and the cipher suite
as well before checkpoints 8 to 11. -/
def partialObject (j : JA3S) (hs : List Byte) (e : ParseError) : JA3S :=
  if e.errType = .LengthErr ∧ (e.check = 5 ∨ e.check = 6) then
    { j with version := byteAt hs 4 * 256 + byteAt hs 5 }
  else if e.errType = .LengthErr ∧ (e.check = 8 ∨ e.check = 9 ∨ e.check = 10 ∨ e.check = 11) then
    { j with
      version := byteAt hs 4 * 256 + byteAt hs 5
      cipherSuite := byteAt hs (39 + byteAt hs 38) * 256 + byteAt hs (40 + byteAt hs 38) }
  else j

/-- The part of `parseHandshake` that follows the truncation `hs = hs[:handshakeLen+4]`,
as a function of the truncated buffer; `parseHandshake_cons` connects the two. -/
def parseHello (j : JA3S) (hs : List Byte) : Exec (JA3S × Option ParseError) :=
  if hs.length < handshakeHeaderLen then
    .ret (j, some ⟨.LengthErr, 500⟩)
  else do
    let h4 ← index hs 4
    let h5 ← index hs 5
    let tlsVersion := u16 h4 h5
    if tlsVersion &&& tlsVersionBitmask ≠ 0x0300 ∧ tlsVersion ≠ tls13 then
      .ret (j, some ⟨.VersionErr, 2⟩)
    else do
      let j := { j with version := tlsVersion }
      let sessionIDLen ← index hs 38
      if hs.length < handshakeHeaderLen + randomDataLen + sessionIDHeaderLen
          + sessionIDLen.val then
        .ret (j, some ⟨.LengthErr, 5⟩)
      else do
        let cs ← sliceFrom hs
          (handshakeHeaderLen + randomDataLen + sessionIDHeaderLen + sessionIDLen.val)
        if cs.length < cipherSuiteHeaderLen then
          .ret (j, some ⟨.LengthErr, 6⟩)
        else do
          let c0 ← index cs 0
          let c1 ← index cs 1
          let j := { j with cipherSuite := u16 c0 c1 }
          if cs.length < cipherSuiteHeaderLen + compressMethodHeaderLen then
            .ret (j, some ⟨.LengthErr, 8⟩)
          else do
            let exs ← sliceFrom cs (cipherSuiteHeaderLen + compressMethodHeaderLen)
            parseExtensions j exs

/-- The offsets of a segment that hold a skipped field: the record length (3 and 4), the
random (11 to 42), the session-id content (from 44 on, as many bytes as the length byte at
offset 43 says) and the compression-method selector (two bytes after the session id). -/
def skippedOffset (b : List Byte) (i : Nat) : Bool :=
  decide (i = 3) || decide (i = 4) || (decide (11 ≤ i) && decide (i < 43))
    || (decide (44 ≤ i) && decide (i < 44 + byteAt b 43)) || decide (i = 46 + byteAt b 43)

/-! ## Theorems: the marshaler -/

theorem decimal_of_lt_ten (u : Nat) (h : u < 10) : decimal u = [digitByte u] := by
  interval_cases u <;> simp [decimal]; rfl

theorem decimal_of_ten_le (u : Nat) (h : 10 ≤ u) :
    decimal u = decimal (u / 10) ++ [digitByte (u % 10)] := by
  have h0 : u ≠ 0 := by omega
  have h1 : u / 10 ≠ 0 := by omega
  simp only [decimal, h0, h1, if_false]
  rw [Nat.digits_def' (by decide) (by omega)]
  simp

theorem formatBits_eq (fuel : Nat) : ∀ (u : Nat) (a : List Byte), u < fuel →
    formatBits fuel u a = decimal u ++ a := by
  induction fuel with
  | zero => intro u a h; omega
  | succ n ih =>
    intro u a h
    unfold formatBits
    by_cases hu : u ≥ 10
    · rw [if_pos hu, ih _ _ (by omega), decimal_of_ten_le u hu]
      simp
    · rw [if_neg hu, decimal_of_lt_ten u (by omega)]
      simp

theorem appendUint_eq (dst : List Byte) (i : Nat) : appendUint dst i = dst ++ decimal i := by
  simp [appendUint, formatBits_eq]

theorem foldl_appendUint (xs : List Nat) : ∀ (init : List Byte),
    xs.foldl (fun bs val => appendUint bs val ++ [dashByte]) init
      = init ++ (xs.map (fun v => decimal v ++ [dashByte])).flatten := by
  induction xs with
  | nil => intro init; simp
  | cons x xs ih => intro init; rw [List.foldl_cons, ih, appendUint_eq]; simp

theorem join_dash (x : Nat) (xs : List Nat) :
    ((x :: xs).map (fun v => decimal v ++ [dashByte])).flatten
      = List.intercalate [dashByte] ((x :: xs).map decimal) ++ [dashByte] := by
  induction xs generalizing x with
  | nil => simp [List.intercalate]
  | cons y ys ih =>
    have := ih y
    simp only [List.map_cons, List.flatten_cons] at this ⊢
    rw [this]
    simp [List.intercalate]

theorem marshalJA3S_eq (j : JA3S) :
    marshalJA3S j = { j with ja3SByteString := some (canonicalJA3S j.version j.cipherSuite j.extensions) } := by
  unfold marshalJA3S canonicalJA3S
  cases hx : j.extensions with
  | nil => simp [appendUint_eq, List.intercalate]
  | cons x xs =>
    have key : ∀ (A I : List Byte), (A ++ (I ++ [dashByte])).take ((A ++ (I ++ [dashByte])).length - 1) = A ++ I := by
      intro A I
      rw [← List.dropLast_eq_take, ← List.append_assoc, List.dropLast_concat]
    simp only [List.length_cons, ne_eq, Nat.add_one_ne_zero, not_false_eq_true, if_true]
    rw [foldl_appendUint, join_dash, key]
    simp [appendUint_eq]

theorem digitByte_val (d : Nat) (h : d < 10) : (digitByte d).val = 48 + d := by
  simp only [digitByte]; omega

theorem decimal_digits (n : Nat) : ∀ b ∈ decimal n, 48 ≤ b.val ∧ b.val ≤ 57 := by
  intro b hb
  unfold decimal at hb
  split at hb
  · simp at hb; subst hb; decide
  · simp only [List.mem_map, List.mem_reverse] at hb
    obtain ⟨d, hd, rfl⟩ := hb
    have := Nat.digits_lt_base (by decide : 1 < 10) hd
    rw [digitByte_val d this]; omega

theorem decimal_ne_nil (n : Nat) : decimal n ≠ [] := by
  unfold decimal
  split
  · simp
  · rename_i h
    simp [Nat.digits_ne_nil_iff_ne_zero, h]

theorem intercalate_decimal_suffix (x : Nat) (xs : List Nat) :
    ∃ (p : List Byte) (y : Nat), List.intercalate [dashByte] ((x :: xs).map decimal) = p ++ decimal y := by
  induction xs generalizing x with
  | nil => exact ⟨[], x, by simp [List.intercalate]⟩
  | cons y ys ih =>
    obtain ⟨p, z, hz⟩ := ih y
    refine ⟨decimal x ++ [dashByte] ++ p, z, ?_⟩
    simp only [List.map_cons] at hz ⊢
    rw [List.append_assoc, ← hz]
    simp [List.intercalate]

theorem canonicalJA3S_getLast (v c : Nat) (exts : List Nat) :
    (canonicalJA3S v c exts).getLast? ≠ some dashByte := by
  unfold canonicalJA3S
  cases exts with
  | nil =>
    rw [show List.intercalate [dashByte] (([] : List Nat).map decimal) = [] from rfl,
      List.append_nil, List.getLast?_concat]
    decide
  | cons x xs =>
    obtain ⟨p, y, hy⟩ := intercalate_decimal_suffix x xs
    rw [hy, ← List.append_assoc, List.getLast?_append_of_ne_nil _ (decimal_ne_nil y)]
    intro h
    have := decimal_digits y dashByte (List.mem_of_getLast?_eq_some h)
    revert this
    decide

/-- C1: `marshalJA3S` stores, and `GetJA3SByteString` on an object whose cache is unset
returns, exactly decimal(version), a comma, decimal(cipherSuite), a comma and the
decimal renderings of the extensions in list order joined by dashes; with no
extensions the string ends with the second comma (771,4865, for version 771 and
cipher suite 4865), and the string never ends with a dash. -/
theorem C1_marshalJA3S_canonical (j : JA3S) :
    (marshalJA3S j).ja3SByteString
        = some (canonicalJA3S j.version j.cipherSuite j.extensions)
    ∧ (GetJA3SByteString { j with ja3SByteString := none }).1
        = some (canonicalJA3S j.version j.cipherSuite j.extensions)
    ∧ (marshalJA3S { j with extensions := [] }).ja3SByteString
        = some (decimal j.version ++ [commaByte] ++ decimal j.cipherSuite ++ [commaByte])
    ∧ (marshalJA3S { version := 771, cipherSuite := 4865 }).ja3SByteString
        = some [55, 55, 49, 44, 52, 56, 54, 53, 44]
    ∧ (bytesOf (marshalJA3S j).ja3SByteString).getLast? ≠ some dashByte := by
  refine ⟨by rw [marshalJA3S_eq], ?_, ?_, by decide, ?_⟩
  · simp [GetJA3SByteString, marshalJA3S_eq]
  · rw [marshalJA3S_eq]; simp [canonicalJA3S, List.intercalate]
  · rw [marshalJA3S_eq]
    exact canonicalJA3S_getLast _ _ _
/-! ## Basic facts about the execution model -/

theorem ret_bind {α β : Type} (a : α) (f : α → Exec β) : (Exec.ret a >>= f) = f a := rfl

theorem panic_bind {α β : Type} (f : α → Exec β) : ((Exec.panic : Exec α) >>= f) = Exec.panic := rfl

theorem hang_bind {α β : Type} (f : α → Exec β) : ((Exec.hang : Exec α) >>= f) = Exec.hang := rfl

theorem u16_eq (a b : Byte) : u16 a b = a.val * 256 + b.val := by
  have ha := a.isLt
  have hb := b.isLt
  unfold u16
  rw [Nat.shiftLeft_eq, Nat.mul_comm, ← Nat.mul_add_lt_is_or (by simp)]
  omega

theorem u16_lt (a b : Byte) : u16 a b < 65536 := by
  have ha := a.isLt
  have hb := b.isLt
  rw [u16_eq]; omega

theorem u24_eq (a b c : Byte) : u24 a b c = a.val * 65536 + b.val * 256 + c.val := by
  have ha := a.isLt
  have hb := b.isLt
  have hc := c.isLt
  unfold u24
  rw [Nat.shiftLeft_eq, Nat.shiftLeft_eq, Nat.mul_comm a.val,
    ← Nat.mul_add_lt_is_or (show b.val * 2 ^ 8 < 2 ^ 16 by omega),
    show 2 ^ 16 * a.val + b.val * 2 ^ 8 = 2 ^ 8 * (a.val * 256 + b.val) by omega,
    ← Nat.mul_add_lt_is_or (by simp)]
  omega

theorem index_eq (s : List Byte) (i : Nat) :
    index s i = if i < s.length then .ret (s.getD i 0) else .panic := by
  unfold index
  by_cases h : i < s.length
  · simp [h, List.getD_eq_getElem?_getD, List.getElem?_eq_getElem h]
  · simp [h, List.getElem?_eq_none (Nat.le_of_not_lt h)]

theorem index_of_lt (s : List Byte) (i : Nat) (h : i < s.length) :
    index s i = .ret (s.getD i 0) := by
  rw [index_eq, if_pos h]

theorem sliceFrom_of_le (s : List Byte) (n : Nat) (h : n ≤ s.length) :
    sliceFrom s n = .ret (s.drop n) := by
  rw [sliceFrom, if_pos h]

theorem sliceTo_of_le (s : List Byte) (n : Nat) (h : n ≤ s.length) :
    sliceTo s n = .ret (s.take n) := by
  rw [sliceTo, if_pos h]

/-! ## The extension loop, one iteration at a time -/

theorem loop_nil (fuel : Nat) (acc : List Nat) :
    parseExtensionsLoop (fuel + 1) [] acc = .ret (.ok acc) := by
  simp [parseExtensionsLoop]

theorem loop_short (fuel : Nat) (exs : List Byte) (acc : List Nat)
    (h0 : 0 < exs.length) (h4 : exs.length < 4) :
    parseExtensionsLoop (fuel + 1) exs acc = .ret (.error ⟨.LengthErr, 11⟩) := by
  simp [parseExtensionsLoop, h0, h4]

theorem loop_cons (fuel : Nat) (a b c d : Byte) (rest : List Byte) (acc : List Nat) :
    parseExtensionsLoop (fuel + 1) (a :: b :: c :: d :: rest) acc
      = if rest.length < u16 c d then .ret (.ok (keepType acc (u16 a b)))
        else parseExtensionsLoop fuel
          ((a :: b :: c :: d :: rest).drop ((4 + u16 c d) % 2 ^ 16)) (keepType acc (u16 a b)) := by
  have hl := u16_lt c d
  rw [parseExtensionsLoop]
  simp only [index_eq, sliceFrom, List.length_cons, keepType]
  have h1 : (4 + u16 c d) % 65536 ≤ 4 + u16 c d := Nat.mod_le _ _
  have e1 : ¬ (rest.length + 1 + 1 + 1 + 1 < extensionHeaderLen) := by
    show ¬ (_ < 4); omega
  by_cases h : rest.length < u16 c d
  · have e2 : rest.length + 1 + 1 + 1 + 1 < extensionHeaderLen + u16 c d := by
      show _ < 4 + _; omega
    simp [h, e1, e2, ret_bind]
  · have e2 : ¬ (rest.length + 1 + 1 + 1 + 1 < extensionHeaderLen + u16 c d) := by
      show ¬ (_ < 4 + _); omega
    have e3 : (4 + u16 c d) % 65536 ≤ rest.length + 1 + 1 + 1 + 1 := by omega
    simp [h, e1, e2, e3, ret_bind]
theorem bind_eq_ret {α β : Type} (x : Exec α) (f : α → Exec β) (r : β) :
    (x >>= f) = .ret r ↔ ∃ a, x = .ret a ∧ f a = .ret r := by
  cases x with
  | ret a => simp [ret_bind]
  | panic => simp [panic_bind]
  | hang => simp [hang_bind]

theorem index_eq_ret (s : List Byte) (i : Nat) (a : Byte) :
    index s i = .ret a ↔ i < s.length ∧ s.getD i 0 = a := by
  rw [index_eq]
  by_cases h : i < s.length <;> simp [h]

theorem sliceFrom_eq_ret (s : List Byte) (n : Nat) (r : List Byte) :
    sliceFrom s n = .ret r ↔ n ≤ s.length ∧ s.drop n = r := by
  unfold sliceFrom
  by_cases h : n ≤ s.length <;> simp [h]

theorem sliceTo_eq_ret (s : List Byte) (n : Nat) (r : List Byte) :
    sliceTo s n = .ret r ↔ n ≤ s.length ∧ s.take n = r := by
  unfold sliceTo
  by_cases h : n ≤ s.length <;> simp [h]

theorem exs_cases (exs : List Byte) :
    exs = [] ∨ (0 < exs.length ∧ exs.length < 4)
      ∨ ∃ a b c d rest, exs = a :: b :: c :: d :: rest := by
  match exs with
  | [] => simp
  | [_] => simp
  | [_, _] => simp
  | [_, _, _] => simp
  | a :: b :: c :: d :: rest => exact Or.inr (Or.inr ⟨a, b, c, d, rest, rfl⟩)

theorem loop_err (fuel : Nat) : ∀ (exs : List Byte) (acc : List Nat) (e : ParseError),
    parseExtensionsLoop fuel exs acc = .ret (.error e) → e = ⟨.LengthErr, 11⟩ := by
  induction fuel with
  | zero => intro exs acc e h; simp [parseExtensionsLoop] at h
  | succ n ih =>
    intro exs acc e h
    rcases exs_cases exs with rfl | ⟨h0, h4⟩ | ⟨a, b, c, d, rest, rfl⟩
    · simp [loop_nil] at h
    · rw [loop_short _ _ _ h0 h4] at h
      simp at h; exact h.symm
    · rw [loop_cons] at h
      split at h
      · simp at h
      · exact ih _ _ _ h

theorem parseExtensions_err (j j' : JA3S) (exs : List Byte) (e : ParseError)
    (h : parseExtensions j exs = .ret (j', some e)) :
    j' = j ∧ e.errType = .LengthErr ∧ (e.check = 9 ∨ e.check = 10 ∨ e.check = 11) := by
  unfold parseExtensions at h
  split at h
  · simp at h
  split at h
  · simp at h; obtain ⟨rfl, rfl⟩ := h; simp
  simp only [bind_eq_ret, index_eq_ret, sliceFrom_eq_ret] at h
  obtain ⟨e0, -, e1, -, exs', -, h⟩ := h
  split at h
  · simp at h; obtain ⟨rfl, rfl⟩ := h; simp
  simp only [bind_eq_ret] at h
  obtain ⟨r, hr, h⟩ := h
  cases r with
  | error e' =>
    simp at h; obtain ⟨rfl, rfl⟩ := h
    have := loop_err _ _ _ _ hr
    subst this; simp
  | ok x => simp at h

theorem getD_take (l : List Byte) (n i : Nat) (h : i < (l.take n).length) :
    (l.take n).getD i 0 = l.getD i 0 := by
  have hi : i < n := by
    rw [List.length_take] at h; omega
  simp [List.getD_eq_getElem?_getD, List.getElem?_take, hi]

theorem getD_drop (l : List Byte) (n i : Nat) :
    (l.drop n).getD i 0 = l.getD (n + i) 0 := by
  simp [List.getD_eq_getElem?_getD, List.getElem?_drop]

theorem parseHandshake_err (j j' : JA3S) (hs : List Byte) (e : ParseError)
    (h : parseHandshake j hs = .ret (j', some e)) :
    j' = partialObject j hs e := by
  unfold parseHandshake at h
  simp only [handshakeHeaderLen, randomDataLen, sessionIDHeaderLen, cipherSuiteHeaderLen,
    compressMethodHeaderLen] at h
  split at h
  · simp at h; obtain ⟨rfl, rfl⟩ := h; simp [partialObject]
  simp only [bind_eq_ret, index_eq_ret] at h
  obtain ⟨t, -, h⟩ := h
  split at h
  · simp at h; obtain ⟨rfl, rfl⟩ := h; simp [partialObject]
  simp only [bind_eq_ret, index_eq_ret, sliceFrom_eq_ret] at h
  obtain ⟨h1, -, h2, -, h3, -, rest, -, h⟩ := h
  split at h
  · simp at h; obtain ⟨rfl, rfl⟩ := h; simp [partialObject]
  simp only [bind_eq_ret, sliceTo_eq_ret] at h
  obtain ⟨hs', ⟨hle, rfl⟩, h⟩ := h
  split at h
  · simp at h; obtain ⟨rfl, rfl⟩ := h; simp [partialObject]
  simp only [bind_eq_ret, index_eq_ret] at h
  obtain ⟨h4, ⟨hl4, hv4⟩, h5, ⟨hl5, hv5⟩, h⟩ := h
  split at h
  · simp at h; obtain ⟨rfl, rfl⟩ := h; simp [partialObject]
  simp only [bind_eq_ret, index_eq_ret] at h
  obtain ⟨sid, ⟨hl38, hv38⟩, h⟩ := h
  rw [getD_take _ _ _ hl4] at hv4
  rw [getD_take _ _ _ hl5] at hv5
  rw [getD_take _ _ _ hl38] at hv38
  have hver : u16 h4 h5 = byteAt hs 4 * 256 + byteAt hs 5 := by
    rw [u16_eq, ← hv4, ← hv5]; rfl
  split at h
  · simp at h; obtain ⟨rfl, rfl⟩ := h; simp [partialObject, hver]
  simp only [bind_eq_ret, index_eq_ret, sliceFrom_eq_ret] at h
  obtain ⟨cs, ⟨hlcs, rfl⟩, h⟩ := h
  split at h
  · simp at h; obtain ⟨rfl, rfl⟩ := h; simp [partialObject, hver]
  simp only [bind_eq_ret, index_eq_ret] at h
  obtain ⟨c0, ⟨hl0, hv0⟩, c1, ⟨hl1, hv1⟩, h⟩ := h
  rw [getD_drop, getD_take _ _ _ (by rw [List.length_drop] at hl0; omega)] at hv0
  rw [getD_drop, getD_take _ _ _ (by rw [List.length_drop] at hl1; omega)] at hv1
  have hcs : u16 c0 c1
      = byteAt hs (39 + byteAt hs 38) * 256 + byteAt hs (40 + byteAt hs 38) := by
    rw [u16_eq, ← hv0, ← hv1]
    simp only [byteAt, hv38]
    congr 2; congr 1; omega
  split at h
  · simp at h; obtain ⟨rfl, rfl⟩ := h; simp [partialObject, hver, hcs]
  simp only [bind_eq_ret, sliceFrom_eq_ret] at h
  obtain ⟨exs, -, h⟩ := h
  obtain ⟨rfl, ht, hc⟩ := parseExtensions_err _ _ _ _ h
  have : ¬ (e.check = 5 ∨ e.check = 6) := by omega
  simp [partialObject, ht, hc, this, hver, hcs]
/-! ## The record and handshake checks on a buffer given by its leading bytes -/

theorem parseSegment_short (j : JA3S) (segment : List Byte) (h : segment.length < 5) :
    parseSegment j segment = .ret (j, some ⟨.LengthErr, 1⟩) := by
  simp [parseSegment, h]

theorem parseSegment_cons (j : JA3S) (ct r1 r2 l1 l2 : Byte) (hs : List Byte) :
    parseSegment j (ct :: r1 :: r2 :: l1 :: l2 :: hs)
      = if ct.val ≠ 22 then .ret (j, some ⟨.ContentTypeErr, 0⟩)
        else if u16 r1 r2 &&& 0xFFFC ≠ 0x0300 ∧ u16 r1 r2 ≠ 0x0304 then
          .ret (j, some ⟨.VersionErr, 1⟩)
        else parseHandshake j hs := by
  simp [parseSegment, index, sliceFrom, ret_bind]

theorem parseHandshake_short (j : JA3S) (hs : List Byte) (h : hs.length < 39) :
    parseHandshake j hs = .ret (j, some ⟨.LengthErr, 3⟩) := by
  simp [parseHandshake, h]

theorem index_cons_zero (a : Byte) (s : List Byte) : index (a :: s) 0 = .ret a := by
  simp [index]

theorem index_cons_succ (a : Byte) (s : List Byte) (n : Nat) :
    index (a :: s) (n + 1) = index s n := by
  simp [index]

theorem parseHandshake_eq (j : JA3S) (hs : List Byte) :
    parseHandshake j hs
      = if hs.length < 39 then .ret (j, some ⟨.LengthErr, 3⟩)
        else index hs 0 >>= fun t =>
          if t.val ≠ 2 then .ret (j, some ⟨.HandshakeTypeErr, 0⟩)
          else index hs 1 >>= fun h1 => index hs 2 >>= fun h2 => index hs 3 >>= fun h3 =>
            sliceFrom hs 4 >>= fun rest =>
              if rest.length < u24 h1 h2 h3 then .ret (j, some ⟨.LengthErr, 4⟩)
              else sliceTo hs ((u24 h1 h2 h3 + 4) % 2 ^ 32) >>= fun hs => parseHello j hs := rfl

theorem parseHandshake_cons (j : JA3S) (t h1 h2 h3 : Byte) (body : List Byte)
    (hlen : 35 ≤ body.length) :
    parseHandshake j (t :: h1 :: h2 :: h3 :: body)
      = if t.val ≠ 2 then .ret (j, some ⟨.HandshakeTypeErr, 0⟩)
        else if body.length < u24 h1 h2 h3 then .ret (j, some ⟨.LengthErr, 4⟩)
        else parseHello j (t :: h1 :: h2 :: h3 :: body.take (u24 h1 h2 h3)) := by
  have hu : u24 h1 h2 h3 < 2 ^ 24 := by
    have := h1.isLt; have := h2.isLt; have := h3.isLt
    rw [u24_eq]; omega
  have hmod : (u24 h1 h2 h3 + 4) % 2 ^ 32 = u24 h1 h2 h3 + 4 := by
    apply Nat.mod_eq_of_lt; omega
  have e1 : ¬ ((t :: h1 :: h2 :: h3 :: body).length < 39) := by
    simp only [List.length_cons]; omega
  have e4 : sliceFrom (t :: h1 :: h2 :: h3 :: body) 4 = .ret body := by
    simp [sliceFrom]
  rw [parseHandshake_eq, if_neg e1]
  simp only [index_cons_zero, index_cons_succ, ret_bind, e4, hmod]
  by_cases ht : t.val = 2
  · by_cases hL : body.length < u24 h1 h2 h3
    · simp [ht, hL]
    · have e5 : sliceTo (t :: h1 :: h2 :: h3 :: body) (u24 h1 h2 h3 + 4)
          = .ret (t :: h1 :: h2 :: h3 :: body.take (u24 h1 h2 h3)) := by
        rw [sliceTo_of_le _ _ (by simp only [List.length_cons]; omega)]
        simp
      simp [ht, hL, e5, ret_bind]
  · simp [ht]
theorem index_append_at (p : List Byte) (x : Byte) (q : List Byte) (n : Nat)
    (hn : p.length = n) : index (p ++ x :: q) n = .ret x := by
  subst hn
  unfold index
  rw [List.getElem?_append_right (Nat.le_refl _)]
  simp

theorem sliceFrom_append_at (p q : List Byte) (n : Nat) (hn : p.length = n) :
    sliceFrom (p ++ q) n = .ret q := by
  subst hn
  simp [sliceFrom]

theorem parseHello_shape (j : JA3S) (t h1 h2 h3 v1 v2 sidLen c1 c2 comp : Byte)
    (random sid exs : List Byte) (hr : random.length = 32) (hsid : sid.length = sidLen.val)
    (hv : u16 v1 v2 &&& 0xFFFC = 0x0300 ∨ u16 v1 v2 = 0x0304) :
    parseHello j (t :: h1 :: h2 :: h3 :: v1 :: v2 ::
        (random ++ sidLen :: (sid ++ c1 :: c2 :: comp :: exs)))
      = parseExtensions { j with version := u16 v1 v2, cipherSuite := u16 c1 c2 } exs := by
  have hlen : (t :: h1 :: h2 :: h3 :: v1 :: v2 ::
        (random ++ sidLen :: (sid ++ c1 :: c2 :: comp :: exs))).length
        = 42 + sid.length + exs.length := by
    simp only [List.length_cons, List.length_append, hr]; omega
  have hv' : ¬ (u16 v1 v2 &&& tlsVersionBitmask ≠ 0x0300 ∧ u16 v1 v2 ≠ tls13) := by
    simp only [tlsVersionBitmask, tls13]; tauto
  have e38 : index (t :: h1 :: h2 :: h3 :: v1 :: v2 ::
        (random ++ sidLen :: (sid ++ c1 :: c2 :: comp :: exs))) 38 = .ret sidLen := by
    simp only [index_cons_succ]
    exact index_append_at _ _ _ _ hr
  have ecs : sliceFrom (t :: h1 :: h2 :: h3 :: v1 :: v2 ::
        (random ++ sidLen :: (sid ++ c1 :: c2 :: comp :: exs))) (39 + sidLen.val)
        = .ret (c1 :: c2 :: comp :: exs) := by
    have : (t :: h1 :: h2 :: h3 :: v1 :: v2 ::
        (random ++ sidLen :: (sid ++ c1 :: c2 :: comp :: exs)))
        = (t :: h1 :: h2 :: h3 :: v1 :: v2 :: (random ++ sidLen :: sid))
          ++ (c1 :: c2 :: comp :: exs) := by simp
    rw [this]
    apply sliceFrom_append_at
    simp only [List.length_cons, List.length_append, hr]; omega
  have eexs : sliceFrom (c1 :: c2 :: comp :: exs) 3 = .ret exs := by
    simp [sliceFrom]
  unfold parseHello
  simp only [handshakeHeaderLen, randomDataLen, sessionIDHeaderLen, cipherSuiteHeaderLen,
    compressMethodHeaderLen, Nat.reduceAdd]
  rw [if_neg (by rw [hlen]; omega)]
  simp only [index_cons_zero, index_cons_succ, ret_bind, if_neg hv', e38]
  rw [if_neg (by rw [hlen]; omega)]
  simp only [ecs, ret_bind, index_cons_zero, index_cons_succ, List.length_cons]
  rw [if_neg (by omega), if_neg (by omega)]
  simp only [eexs, ret_bind]
/-! ## The extension walker on a list of complete entries -/

theorem loop_fuel_mono (fuel : Nat) : ∀ (exs : List Byte) (acc : List Nat)
    (r : Except ParseError (List Nat)), parseExtensionsLoop fuel exs acc = .ret r →
    ∀ k, parseExtensionsLoop (fuel + k) exs acc = .ret r := by
  induction fuel with
  | zero => intro exs acc r h; simp [parseExtensionsLoop] at h
  | succ n ih =>
    intro exs acc r h k
    have hk : n + 1 + k = (n + k) + 1 := by omega
    rw [hk]
    rcases exs_cases exs with rfl | ⟨h0, h4⟩ | ⟨a, b, c, d, rest, rfl⟩
    · rw [loop_nil] at h ⊢; exact h
    · rw [loop_short _ _ _ h0 h4] at h ⊢; exact h
    · rw [loop_cons] at h ⊢
      split
      · rw [if_pos (by assumption)] at h; exact h
      · rw [if_neg (by assumption)] at h; exact ih _ _ _ h k

theorem toByte_val (n : Nat) : (toByte n).val = n % 256 := rfl

theorem u16_be16 (n : Nat) (h : n < 65536) :
    u16 (toByte (n / 256)) (toByte n) = n := by
  rw [u16_eq, toByte_val, toByte_val]; omega

theorem keepType_eq (acc : List Nat) (t : Nat) : keepType acc t = acc ++ dropGrease [t] := by
  unfold keepType dropGrease
  by_cases h : t &&& 0x0F0F = 0x0A0A <;> simp [h]

theorem dropGrease_append (xs ys : List Nat) :
    dropGrease (xs ++ ys) = dropGrease xs ++ dropGrease ys := by
  simp [dropGrease]

theorem loop_encoded (es : List (Nat × List Byte)) : ∀ (fuel : Nat) (acc : List Nat)
    (tail : List Byte), (∀ e ∈ es, e.1 < 65536 ∧ e.2.length ≤ 65531) →
    parseExtensionsLoop (es.length + fuel) (encodeExtensions es ++ tail) acc
      = parseExtensionsLoop fuel tail (acc ++ dropGrease (es.map Prod.fst)) := by
  induction es with
  | nil => intro fuel acc tail _; simp [encodeExtensions, dropGrease]
  | cons e es ih =>
    intro fuel acc tail hes
    have he := hes e (List.mem_cons_self _ _)
    have hes' : ∀ x ∈ es, x.1 < 65536 ∧ x.2.length ≤ 65531 :=
      fun x hx => hes x (List.mem_cons_of_mem _ hx)
    have hshape : encodeExtensions (e :: es) ++ tail
        = toByte (e.1 / 256) :: toByte e.1 :: toByte (e.2.length / 256) :: toByte e.2.length
            :: (e.2 ++ (encodeExtensions es ++ tail)) := by
      simp [encodeExtensions, encodeExtension, be16]
    have hfuel : (e :: es).length + fuel = (es.length + fuel) + 1 := by
      simp only [List.length_cons]; omega
    rw [hshape, hfuel, loop_cons, u16_be16 _ he.1, u16_be16 _ (by omega)]
    rw [if_neg (by simp only [List.length_append]; omega)]
    have hmod : (4 + e.2.length) % 2 ^ 16 = 4 + e.2.length := Nat.mod_eq_of_lt (by omega)
    rw [hmod]
    have hdrop : List.drop (4 + e.2.length)
        (toByte (e.1 / 256) :: toByte e.1 :: toByte (e.2.length / 256) :: toByte e.2.length
            :: (e.2 ++ (encodeExtensions es ++ tail))) = encodeExtensions es ++ tail := by
      rw [Nat.add_comm]
      simp
    rw [hdrop, ih _ _ _ hes', keepType_eq, List.map_cons, List.append_assoc,
      ← dropGrease_append]
    rfl
theorem parseExtensions_nil (j : JA3S) : parseExtensions j [] = .ret (j, none) := by
  simp [parseExtensions]

theorem parseExtensions_one (j : JA3S) (a : Byte) :
    parseExtensions j [a] = .ret (j, some ⟨.LengthErr, 9⟩) := by
  simp [parseExtensions]

theorem parseExtensions_cons (j : JA3S) (a b : Byte) (rest : List Byte) :
    parseExtensions j (a :: b :: rest)
      = if rest.length < u16 a b then .ret (j, some ⟨.LengthErr, 10⟩)
        else parseExtensionsLoop (rest.length + 1) rest [] >>= fun r =>
          match r with
          | .error e => .ret (j, some e)
          | .ok extensions => .ret ({ j with extensions := extensions }, none) := by
  have e2 : sliceFrom (a :: b :: rest) 2 = .ret rest := by simp [sliceFrom]
  unfold parseExtensions
  simp only [extensionsHeaderLen, List.length_cons]
  rw [if_neg (by omega), if_neg (by omega)]
  simp only [index_cons_zero, index_cons_succ, ret_bind, e2]

theorem length_le_encodeExtensions (es : List (Nat × List Byte)) :
    es.length ≤ (encodeExtensions es).length := by
  induction es with
  | nil => simp
  | cons e es ih =>
    simp only [encodeExtensions, encodeExtension, be16, List.length_cons, List.length_append,
      List.length_nil]
    omega

theorem payload_le_encodeExtensions (es : List (Nat × List Byte)) :
    ∀ e ∈ es, 4 + e.2.length ≤ (encodeExtensions es).length := by
  induction es with
  | nil => intro e he; simp at he
  | cons x xs ih =>
    intro e he
    simp only [encodeExtensions, encodeExtension, be16, List.length_cons, List.length_append,
      List.length_nil]
    rcases List.mem_cons.mp he with rfl | h
    · omega
    · have := ih e h; omega

theorem loop_encoded_all (es : List (Nat × List Byte))
    (hes : ∀ e ∈ es, e.1 < 65536 ∧ e.2.length ≤ 65531) :
    parseExtensionsLoop ((encodeExtensions es).length + 1) (encodeExtensions es) []
      = .ret (.ok (dropGrease (es.map Prod.fst))) := by
  have h1 := loop_encoded es 1 [] [] hes
  rw [List.append_nil, loop_nil, List.nil_append] at h1
  have h2 := loop_fuel_mono _ _ _ _ h1 ((encodeExtensions es).length - es.length)
  have hle := length_le_encodeExtensions es
  have hf : es.length + 1 + ((encodeExtensions es).length - es.length)
      = (encodeExtensions es).length + 1 := by omega
  rw [hf] at h2
  exact h2

theorem parseExtensions_block (j : JA3S) (es : List (Nat × List Byte))
    (htypes : ∀ e ∈ es, e.1 < 65536) (hblock : (encodeExtensions es).length ≤ 65535) :
    parseExtensions j (encodeExtensionBlock es)
      = .ret ({ j with extensions := dropGrease (es.map Prod.fst) }, none) := by
  have hes : ∀ e ∈ es, e.1 < 65536 ∧ e.2.length ≤ 65531 := by
    intro e he
    have := payload_le_encodeExtensions es e he
    exact ⟨htypes e he, by omega⟩
  have hshape : encodeExtensionBlock es
      = toByte ((encodeExtensions es).length / 256) :: toByte (encodeExtensions es).length
          :: encodeExtensions es := by
    simp [encodeExtensionBlock, be16]
  rw [hshape, parseExtensions_cons, u16_be16 _ (by omega), if_neg (by omega),
    loop_encoded_all es hes, ret_bind]

theorem u24_be24 (n : Nat) (h : n < 2 ^ 24) :
    u24 (toByte (n / 65536)) (toByte (n / 256)) (toByte n) = n := by
  rw [u24_eq, toByte_val, toByte_val, toByte_val]; omega

/-- C2: a Server Hello record built from an accepted record version, an accepted hello
version `v`, a 32-byte random, a session id of at most 255 bytes, a cipher suite `c`,
a compression byte and a list of extensions whose encoded block is at most 65535 bytes
parses without error to version = `v`, cipherSuite = `c` unchanged and extensions = the
extension types in wire order without the types matching `t & 0x0F0F = 0x0A0A`. -/
theorem C2_encode_parse_roundtrip (recordVersion recordLen v c : Nat) (random sid : List Byte)
    (compression : Byte) (es : List (Nat × List Byte))
    (hrv16 : recordVersion < 65536)
    (hrv : recordVersion &&& 0xFFFC = 0x0300 ∨ recordVersion = 0x0304)
    (hv16 : v < 65536) (hv : v &&& 0xFFFC = 0x0300 ∨ v = 0x0304)
    (hrandom : random.length = 32) (hsid : sid.length ≤ 255) (hc : c < 65536)
    (htypes : ∀ e ∈ es, e.1 < 65536) (hblock : (encodeExtensions es).length ≤ 65535) :
    ComputeJA3SFromSegment (serverHelloRecord recordVersion recordLen v random sid c compression es)
      = .ret ({ version := v, cipherSuite := c,
                extensions := (es.map Prod.fst).filter (fun t => decide (t &&& 0x0F0F ≠ 0x0A0A)) },
              none) := by
  have hbody : helloBody v random sid c compression es
      = toByte (v / 256) :: toByte v :: (random ++ toByte sid.length
          :: (sid ++ toByte (c / 256) :: toByte c :: compression :: encodeExtensionBlock es)) := by
    simp [helloBody, be16]
  have hblen : (helloBody v random sid c compression es).length
      = 40 + sid.length + (encodeExtensions es).length := by
    rw [hbody]
    simp only [List.length_cons, List.length_append, hrandom, encodeExtensionBlock, be16,
      List.length_nil]
    omega
  have hrec : serverHelloRecord recordVersion recordLen v random sid c compression es
      = 22 :: toByte (recordVersion / 256) :: toByte recordVersion
          :: toByte (recordLen / 256) :: toByte recordLen
          :: 2 :: toByte ((helloBody v random sid c compression es).length / 65536)
          :: toByte ((helloBody v random sid c compression es).length / 256)
          :: toByte (helloBody v random sid c compression es).length
          :: helloBody v random sid c compression es := by
    simp [serverHelloRecord, be16, be24]
  have h35 : 35 ≤ (helloBody v random sid c compression es).length := by omega
  have h24 : (helloBody v random sid c compression es).length < 2 ^ 24 := by omega
  have hsl : sid.length = (toByte sid.length).val := by rw [toByte_val]; omega
  have hv' : u16 (toByte (v / 256)) (toByte v) &&& 0xFFFC = 0x0300
      ∨ u16 (toByte (v / 256)) (toByte v) = 0x0304 := by
    rw [u16_be16 _ hv16]; exact hv
  unfold ComputeJA3SFromSegment
  rw [hrec, parseSegment_cons, if_neg (by decide), u16_be16 _ hrv16,
    if_neg (by tauto), parseHandshake_cons _ _ _ _ _ _ h35, if_neg (by decide),
    u24_be24 _ h24, if_neg (by omega), List.take_length, hbody,
    parseHello_shape _ _ _ _ _ _ _ _ _ _ _ _ _ _ hrandom hsl hv',
    u16_be16 _ hv16, u16_be16 _ hc, parseExtensions_block _ _ htypes hblock]
  rfl
/-- Witness of C2: a record with the extensions 43, 2570 (GREASE) and 65281. -/
theorem C2_encode_parse_roundtrip_witness :
    ComputeJA3SFromSegment
        (serverHelloRecord 771 0 771 (List.replicate 32 7) [1, 2] 4865 0
          [(43, [3, 4]), (2570, []), (65281, [0])])
      = .ret ({ version := 771, cipherSuite := 4865, extensions := [43, 65281] }, none) :=
  C2_encode_parse_roundtrip 771 0 771 4865 (List.replicate 32 7) [1, 2] 0
    [(43, [3, 4]), (2570, []), (65281, [0])]
    (by decide) (by decide) (by decide) (by decide) (by decide) (by decide) (by decide)
    (by decide) (by decide)

/-- C3 (failing input): on a segment whose declared handshake length is 2 the working buffer is
cut to 6 bytes, the check before the hello version asks for 6 bytes only, and the read of the
session-id length at offset 38 is out of range: the call panics instead of returning. -/
theorem C3_sessionIDLen_read_out_of_range :
    ComputeJA3SFromSegment shortDeclaredLengthSegment = .panic := by
  decide

/-- C4: the first violated structural check decides the error: a buffer shorter than 5 bytes gives
LengthErr 1; else a first byte other than 22 gives ContentTypeErr; else an unsupported record
version gives VersionErr 1; else fewer than 39 bytes after the record header give LengthErr 3;
else a handshake type other than 2 gives HandshakeTypeErr; else a declared handshake length
above the number of bytes after the 4-byte handshake header gives LengthErr 4. In each case the
error is non-nil and the object is the fresh one. -/
theorem C4_first_violated_check :
    (∀ b : List Byte, b.length < 5 →
      ComputeJA3SFromSegment b = .ret ({}, some ⟨.LengthErr, 1⟩))
    ∧ (∀ (ct r1 r2 l1 l2 : Byte) (hs : List Byte), ct.val ≠ 22 →
      ComputeJA3SFromSegment (ct :: r1 :: r2 :: l1 :: l2 :: hs)
        = .ret ({}, some ⟨.ContentTypeErr, 0⟩))
    ∧ (∀ (r1 r2 l1 l2 : Byte) (hs : List Byte),
      ((r1.val * 256 + r2.val) &&& 0xFFFC ≠ 0x0300 ∧ r1.val * 256 + r2.val ≠ 0x0304) →
      ComputeJA3SFromSegment (22 :: r1 :: r2 :: l1 :: l2 :: hs)
        = .ret ({}, some ⟨.VersionErr, 1⟩))
    ∧ (∀ (r1 r2 l1 l2 : Byte) (hs : List Byte),
      ((r1.val * 256 + r2.val) &&& 0xFFFC = 0x0300 ∨ r1.val * 256 + r2.val = 0x0304) →
      hs.length < 6 + 32 + 1 →
      ComputeJA3SFromSegment (22 :: r1 :: r2 :: l1 :: l2 :: hs)
        = .ret ({}, some ⟨.LengthErr, 3⟩))
    ∧ (∀ (r1 r2 l1 l2 t : Byte) (rest : List Byte),
      ((r1.val * 256 + r2.val) &&& 0xFFFC = 0x0300 ∨ r1.val * 256 + r2.val = 0x0304) →
      6 + 32 + 1 ≤ (t :: rest).length → t.val ≠ 2 →
      ComputeJA3SFromSegment (22 :: r1 :: r2 :: l1 :: l2 :: t :: rest)
        = .ret ({}, some ⟨.HandshakeTypeErr, 0⟩))
    ∧ (∀ (r1 r2 l1 l2 h1 h2 h3 : Byte) (body : List Byte),
      ((r1.val * 256 + r2.val) &&& 0xFFFC = 0x0300 ∨ r1.val * 256 + r2.val = 0x0304) →
      6 + 32 + 1 ≤ (2 :: h1 :: h2 :: h3 :: body).length →
      body.length < h1.val * 65536 + h2.val * 256 + h3.val →
      ComputeJA3SFromSegment (22 :: r1 :: r2 :: l1 :: l2 :: 2 :: h1 :: h2 :: h3 :: body)
        = .ret ({}, some ⟨.LengthErr, 4⟩)) := by
  refine ⟨?_, ?_, ?_, ?_, ?_, ?_⟩
  · intro b hb
    exact parseSegment_short _ _ hb
  · intro ct r1 r2 l1 l2 hs hct
    unfold ComputeJA3SFromSegment
    rw [parseSegment_cons, if_pos hct]
  · intro r1 r2 l1 l2 hs hv
    unfold ComputeJA3SFromSegment
    rw [parseSegment_cons, if_neg (by decide), u16_eq, if_pos hv]
  · intro r1 r2 l1 l2 hs hv hlen
    unfold ComputeJA3SFromSegment
    rw [parseSegment_cons, if_neg (by decide), u16_eq, if_neg (by tauto),
      parseHandshake_short _ _ hlen]
  · intro r1 r2 l1 l2 t rest hv hlen ht
    unfold ComputeJA3SFromSegment
    rw [parseSegment_cons, if_neg (by decide), u16_eq, if_neg (by tauto)]
    match rest, hlen with
    | h1 :: h2 :: h3 :: body, hlen =>
      rw [parseHandshake_cons _ _ _ _ _ _ (by simp only [List.length_cons] at hlen; omega),
        if_pos ht]
  · intro r1 r2 l1 l2 h1 h2 h3 body hv hlen hL
    unfold ComputeJA3SFromSegment
    rw [parseSegment_cons, if_neg (by decide), u16_eq, if_neg (by tauto),
      parseHandshake_cons _ _ _ _ _ _ (by simp only [List.length_cons] at hlen; omega),
      if_neg (by decide), u24_eq, if_pos hL]

/-- Witness of C4: one buffer for each of the six checks. -/
theorem C4_first_violated_check_witness :
    ComputeJA3SFromSegment [22, 3, 3, 0] = .ret ({}, some ⟨.LengthErr, 1⟩)
    ∧ ComputeJA3SFromSegment [23, 3, 3, 0, 0] = .ret ({}, some ⟨.ContentTypeErr, 0⟩)
    ∧ ComputeJA3SFromSegment [22, 2, 0, 0, 0] = .ret ({}, some ⟨.VersionErr, 1⟩)
    ∧ ComputeJA3SFromSegment [22, 3, 3, 0, 0, 2, 0, 0, 0] = .ret ({}, some ⟨.LengthErr, 3⟩)
    ∧ ComputeJA3SFromSegment (22 :: 3 :: 3 :: 0 :: 0 :: 1 :: List.replicate 38 0)
        = .ret ({}, some ⟨.HandshakeTypeErr, 0⟩)
    ∧ ComputeJA3SFromSegment (22 :: 3 :: 3 :: 0 :: 0 :: 2 :: 0 :: 0 :: 36 :: List.replicate 35 0)
        = .ret ({}, some ⟨.LengthErr, 4⟩) :=
  ⟨C4_first_violated_check.1 [22, 3, 3, 0] (by decide),
   C4_first_violated_check.2.1 23 3 3 0 0 [] (by decide),
   C4_first_violated_check.2.2.1 2 0 0 0 [] (by decide),
   C4_first_violated_check.2.2.2.1 3 3 0 0 [2, 0, 0, 0] (by decide) (by decide),
   C4_first_violated_check.2.2.2.2.1 3 3 0 0 1 (List.replicate 38 0) (by decide) (by decide)
     (by decide),
   C4_first_violated_check.2.2.2.2.2 3 3 0 0 0 0 36 (List.replicate 35 0) (by decide)
     (by decide) (by decide)⟩
theorem and_div_two_pow (a b : Nat) (k : Nat) :
    (a &&& b) / 2 ^ k = a / 2 ^ k &&& b / 2 ^ k := by
  induction k with
  | zero => simp
  | succ n ih =>
    rw [Nat.pow_succ, ← Nat.div_div_eq_div_mul, ← Nat.div_div_eq_div_mul,
      ← Nat.div_div_eq_div_mul, ih, Nat.and_div_two]

theorem and_mod_sixteen (a b : Nat) : (a &&& b) % 16 = a &&& (b % 16) := by
  have h := Nat.and_pow_two_sub_one_eq_mod (a &&& b) 4
  have h' := Nat.and_pow_two_sub_one_eq_mod b 4
  norm_num at h h'
  rw [← h, ← h', Nat.and_assoc]

theorem mask_eq (x : Nat) : x &&& 0x0F0F = x % 16 + 256 * (x / 256 % 16) := by
  have h0 : (x &&& 0x0F0F) % 16 = x % 16 := by
    rw [and_mod_sixteen]
    have h := Nat.and_pow_two_sub_one_eq_mod x 4
    norm_num at h ⊢
    exact h
  have h1 : (x &&& 0x0F0F) / 16 % 16 = 0 := by
    have h := and_div_two_pow x 0x0F0F 4
    norm_num at h
    rw [h, and_mod_sixteen]
    norm_num
  have h2 : (x &&& 0x0F0F) / 256 = x / 256 % 16 := by
    have h := and_div_two_pow x 0x0F0F 8
    have h' := Nat.and_pow_two_sub_one_eq_mod (x / 256) 4
    norm_num at h h'
    rw [h, h']
  omega

theorem mask_iff (x : Nat) :
    x &&& 0x0F0F = 0x0A0A ↔ x % 16 = 10 ∧ x / 256 % 16 = 10 := by
  rw [mask_eq]; omega
/-! ## Lenient truncation and the GREASE mask -/

/-- C5 (counterexample): the region with block length 4 and a single header of type 5 that
declares 9 payload bytes of which none is present (so no complete extension precedes it)
parses without error, and the type 5 of the truncated extension is in the list. -/
theorem C5_truncated_type_is_listed :
    parseExtensions {} ([0, 4] ++ encodeExtensions [] ++ [0, 5, 0, 9])
        = .ret ({ extensions := [5] }, none)
    ∧ ([5] : List Nat) ≠ dropGrease (([] : List (Nat × List Byte)).map Prod.fst) := by
  decide

/-- C5 (amended): a region that passes the block-length check and consists of complete
extensions with payloads of at most 65531 bytes followed by a final 4-byte header whose
declared length exceeds the bytes after it parses without error; the list holds the types
of the complete extensions followed by the type of the truncated one, without the types
that match the GREASE mask. -/
theorem C5_lenient_truncation (j : JA3S) (bl1 bl2 : Byte) (es : List (Nat × List Byte))
    (t declared : Nat) (cut : List Byte)
    (hblock : bl1.val * 256 + bl2.val
      ≤ (encodeExtensions es ++ (be16 t ++ be16 declared ++ cut)).length)
    (hes : ∀ e ∈ es, e.1 < 65536 ∧ e.2.length ≤ 65531)
    (ht : t < 65536) (hd : declared < 65536) (hcut : cut.length < declared) :
    parseExtensions j (bl1 :: bl2 :: (encodeExtensions es ++ (be16 t ++ be16 declared ++ cut)))
      = .ret ({ j with extensions :=
                  (es.map Prod.fst ++ [t]).filter (fun x => decide (x &&& 0x0F0F ≠ 0x0A0A)) },
              none) := by
  have hshape : be16 t ++ be16 declared ++ cut
      = toByte (t / 256) :: toByte t :: toByte (declared / 256) :: toByte declared :: cut := by
    simp [be16]
  have h1 := loop_encoded es 1 [] (be16 t ++ be16 declared ++ cut) hes
  rw [hshape, loop_cons, u16_be16 _ ht, u16_be16 _ hd, if_pos hcut, List.nil_append,
    keepType_eq, ← dropGrease_append] at h1
  have hle := length_le_encodeExtensions es
  have h2 := loop_fuel_mono _ _ _ _ h1
    ((encodeExtensions es ++ (be16 t ++ be16 declared ++ cut)).length - es.length)
  have hf : es.length + 1
      + ((encodeExtensions es ++ (be16 t ++ be16 declared ++ cut)).length - es.length)
      = (encodeExtensions es ++ (be16 t ++ be16 declared ++ cut)).length + 1 := by
    rw [List.length_append]; omega
  rw [hf, ← hshape] at h2
  rw [parseExtensions_cons, u16_eq, if_neg (by omega), h2, ret_bind]
  rfl

/-- Witness of C5: one complete extension (type 43, two payload bytes), one complete GREASE
extension, and a final header of type 16 declaring 300 bytes of which 3 are present. -/
theorem C5_lenient_truncation_witness :
    parseExtensions {} (0 :: 17 :: (encodeExtensions [(43, [3, 4]), (2570, [])]
        ++ (be16 16 ++ be16 300 ++ [1, 2, 3])))
      = .ret ({ extensions := [43, 16] }, none) :=
  C5_lenient_truncation {} 0 17 [(43, [3, 4]), (2570, [])] 16 300 [1, 2, 3]
    (by decide) (by decide) (by decide) (by decide) (by decide)

theorem loop_typesMet (fuel : Nat) : ∀ (exs : List Byte) (acc r : List Nat),
    parseExtensionsLoop fuel exs acc = .ret (.ok r) →
    r = acc ++ dropGrease (typesMet fuel exs) := by
  induction fuel with
  | zero => intro exs acc r h; simp [parseExtensionsLoop] at h
  | succ n ih =>
    intro exs acc r h
    rcases exs_cases exs with rfl | ⟨h0, h4⟩ | ⟨a, b, c, d, rest, rfl⟩
    · rw [loop_nil] at h
      simp only [Exec.ret.injEq, Except.ok.injEq] at h
      simp [typesMet, dropGrease, h]
    · rw [loop_short _ _ _ h0 h4] at h
      simp at h
    · rw [loop_cons] at h
      unfold typesMet
      split at h
      · simp only [Exec.ret.injEq, Except.ok.injEq] at h
        rw [if_pos (by assumption), ← h, keepType_eq]
      · rw [if_neg (by assumption), ih _ _ _ h, keepType_eq, List.append_assoc,
          ← dropGrease_append]
        rfl

/-- C6 (counterexample): the walker meets the type 0x0A1A, which is none of the sixteen GREASE
values, and leaves it out of the extension list. -/
theorem C6_non_grease_type_omitted :
    parseExtensions {} [0, 4, 0x0A, 0x1A, 0, 0] = .ret ({ extensions := [] }, none)
    ∧ typesMet 5 [0x0A, 0x1A, 0, 0] = [0x0A1A]
    ∧ 0x0A1A ∉ greaseValues := by
  decide

/-- C6 (amended): when `parseExtensions` returns without error on a non-empty region, the
extension list is the list of the types the walker met without exactly the types `t` with
`t & 0x0F0F = 0x0A0A`; these are the types whose two bytes both have low nibble `0xA`, and
each of the sixteen GREASE values is one of them. -/
theorem C6_grease_mask_filter (j j' : JA3S) (a b : Byte) (rest : List Byte)
    (h : parseExtensions j (a :: b :: rest) = .ret (j', none)) :
    j'.extensions
        = (typesMet (rest.length + 1) rest).filter (fun t => decide (t &&& 0x0F0F ≠ 0x0A0A))
    ∧ (∀ t : Nat, t &&& 0x0F0F = 0x0A0A ↔ t % 16 = 10 ∧ t / 256 % 16 = 10)
    ∧ (∀ t ∈ greaseValues, t &&& 0x0F0F = 0x0A0A) := by
  refine ⟨?_, mask_iff, by decide⟩
  rw [parseExtensions_cons] at h
  split at h
  · simp at h
  · simp only [bind_eq_ret] at h
    obtain ⟨r, hr, h⟩ := h
    cases r with
    | error e => simp at h
    | ok x =>
      simp only [Exec.ret.injEq, Prod.mk.injEq, and_true] at h
      rw [← h, loop_typesMet _ _ _ _ hr]
      rfl

/-- Witness of C6: a region with the types 43, 0x1A1A (GREASE), 0x0A1A and 65281. -/
theorem C6_grease_mask_filter_witness :
    parseExtensions {} [0, 16, 0, 43, 0, 0, 0x1A, 0x1A, 0, 0, 0x0A, 0x1A, 0, 0, 0xFF, 1, 0, 0]
        = .ret ({ extensions := [43, 65281] }, none)
    ∧ ({ extensions := [43, 65281] } : JA3S).extensions
        = (typesMet 17 [0, 43, 0, 0, 0x1A, 0x1A, 0, 0, 0x0A, 0x1A, 0, 0, 0xFF, 1, 0, 0]).filter
            (fun t => decide (t &&& 0x0F0F ≠ 0x0A0A)) :=
  ⟨by decide,
   (C6_grease_mask_filter {} { extensions := [43, 65281] } 0 16
    [0, 43, 0, 0, 0x1A, 0x1A, 0, 0, 0x0A, 0x1A, 0, 0, 0xFF, 1, 0, 0] (by decide)).1⟩
/-! ## The object returned together with an error -/

theorem parseSegment_err (j j' : JA3S) (segment : List Byte) (e : ParseError)
    (h : parseSegment j segment = .ret (j', some e)) :
    j' = partialObject j (segment.drop 5) e := by
  match segment with
  | [] | [_] | [_, _] | [_, _, _] | [_, _, _, _] =>
    rw [parseSegment_short _ _ (by simp)] at h
    simp at h; obtain ⟨rfl, rfl⟩ := h; simp [partialObject]
  | ct :: r1 :: r2 :: l1 :: l2 :: hs =>
    rw [parseSegment_cons] at h
    split at h
    · simp at h; obtain ⟨rfl, rfl⟩ := h; simp [partialObject]
    split at h
    · simp at h; obtain ⟨rfl, rfl⟩ := h; simp [partialObject]
    · simpa using parseHandshake_err _ _ _ _ h

/-- C7 (counterexample): two segments on which a non-nil error comes back with a populated
object: LengthErr 5 with version = 771, and LengthErr 8 with version = 771 and
cipherSuite = 4865. -/
theorem C7_error_with_populated_fields :
    ComputeJA3SFromSegment missingSessionIDSegment
        = .ret ({ version := 771 }, some ⟨.LengthErr, 5⟩)
    ∧ ComputeJA3SFromSegment missingCompressionSegment
        = .ret ({ version := 771, cipherSuite := 4865 }, some ⟨.LengthErr, 8⟩)
    ∧ ({ version := 771 } : JA3S).version ≠ 0
    ∧ ({ version := 771, cipherSuite := 4865 } : JA3S).cipherSuite ≠ 0 := by
  decide

/-- C7 (amended): when `ComputeJA3SFromSegment` returns a non-nil error the extension list is
empty and both caches are unset; version and cipherSuite are 0 for every error raised up to
the hello-version check, version holds the hello version for LengthErr 5 and 6, and version
and cipherSuite hold the values read from the buffer for LengthErr 8, 9, 10 and 11. -/
theorem C7_error_object (payload : List Byte) (j : JA3S) (e : ParseError)
    (h : ComputeJA3SFromSegment payload = .ret (j, some e)) :
    j = partialObject {} (payload.drop recordLayerHeaderLen) e
    ∧ j.extensions = [] ∧ j.ja3SByteString = none ∧ j.ja3SHash = [] := by
  have hj := parseSegment_err _ _ _ _ h
  refine ⟨hj, ?_, ?_, ?_⟩ <;>
  · rw [hj]; unfold partialObject; split
    · rfl
    · split <;> rfl

/-- Witness of C7: the segment that stops after the cipher suite. -/
theorem C7_error_object_witness :
    ({ version := 771, cipherSuite := 4865 } : JA3S)
        = partialObject {} (missingCompressionSegment.drop recordLayerHeaderLen) ⟨.LengthErr, 8⟩
    ∧ ({ version := 771, cipherSuite := 4865 } : JA3S).extensions = []
    ∧ ({ version := 771, cipherSuite := 4865 } : JA3S).ja3SByteString = none
    ∧ ({ version := 771, cipherSuite := 4865 } : JA3S).ja3SHash = [] :=
  C7_error_object missingCompressionSegment { version := 771, cipherSuite := 4865 }
    ⟨.LengthErr, 8⟩ (by decide)
/-! ## Clipped captures -/

theorem serverHelloRecord_shape (recordVersion recordLen v : Nat) (random sid : List Byte)
    (c : Nat) (compression : Byte) (es : List (Nat × List Byte)) :
    serverHelloRecord recordVersion recordLen v random sid c compression es
      = 22 :: toByte (recordVersion / 256) :: toByte recordVersion
          :: toByte (recordLen / 256) :: toByte recordLen
          :: 2 :: toByte ((helloBody v random sid c compression es).length / 65536)
          :: toByte ((helloBody v random sid c compression es).length / 256)
          :: toByte (helloBody v random sid c compression es).length
          :: helloBody v random sid c compression es := by
  simp [serverHelloRecord, be16, be24]

theorem helloBody_length (v : Nat) (random sid : List Byte) (c : Nat) (compression : Byte)
    (es : List (Nat × List Byte)) (hrandom : random.length = 32) :
    (helloBody v random sid c compression es).length
      = 40 + sid.length + (encodeExtensions es).length := by
  simp only [helloBody, List.length_cons, List.length_append, hrandom, encodeExtensionBlock,
    be16, List.length_nil]
  omega

theorem encodeExtensions_append (xs ys : List (Nat × List Byte)) :
    encodeExtensions (xs ++ ys) = encodeExtensions xs ++ encodeExtensions ys := by
  induction xs with
  | nil => rfl
  | cons x xs ih => simp [encodeExtensions, ih]

/-- C8 (counterexample): a well-formed 55-byte record whose only extension (type 43) has a
2-byte payload, clipped after the first payload byte, is rejected with LengthErr 4; the
unclipped record parses. -/
theorem C8_clipped_record_is_an_error :
    ComputeJA3SFromSegment
        ((serverHelloRecord 771 50 771 (List.replicate 32 0) [] 4865 0 [(43, [3, 4])]).take 54)
      = .ret ({}, some ⟨.LengthErr, 4⟩)
    ∧ ComputeJA3SFromSegment
        (serverHelloRecord 771 50 771 (List.replicate 32 0) [] 4865 0 [(43, [3, 4])])
      = .ret ({ version := 771, cipherSuite := 4865, extensions := [43] }, none) := by
  decide

/-- C8 (amended): for every well-formed Server Hello record whose last extension has the payload
`payload`, and every clip point inside that payload, `ComputeJA3SFromSegment` on the clipped
prefix returns LengthErr at checkpoint 4 (the declared handshake length exceeds what is left)
and the fresh object; no fingerprint is produced. -/
theorem C8_clipped_record_rejected (recordVersion recordLen v c : Nat) (random sid : List Byte)
    (compression : Byte) (es : List (Nat × List Byte)) (t : Nat) (payload : List Byte) (n : Nat)
    (hrv16 : recordVersion < 65536)
    (hrv : recordVersion &&& 0xFFFC = 0x0300 ∨ recordVersion = 0x0304)
    (hrandom : random.length = 32) (hsid : sid.length ≤ 255)
    (hblock : (encodeExtensions (es ++ [(t, payload)])).length ≤ 65535)
    (hlo : (serverHelloRecord recordVersion recordLen v random sid c compression
              (es ++ [(t, payload)])).length - payload.length ≤ n)
    (hhi : n < (serverHelloRecord recordVersion recordLen v random sid c compression
              (es ++ [(t, payload)])).length) :
    ComputeJA3SFromSegment
        ((serverHelloRecord recordVersion recordLen v random sid c compression
            (es ++ [(t, payload)])).take n)
      = .ret ({}, some ⟨.LengthErr, 4⟩) := by
  have hblen := helloBody_length v random sid c compression (es ++ [(t, payload)]) hrandom
  have henc : (encodeExtensions (es ++ [(t, payload)])).length
      = (encodeExtensions es).length + (4 + payload.length) := by
    rw [encodeExtensions_append]
    simp only [encodeExtensions, encodeExtension, be16, List.length_cons, List.length_append,
      List.length_nil]
    omega
  rw [serverHelloRecord_shape] at hlo hhi ⊢
  simp only [List.length_cons] at hlo hhi
  obtain ⟨m, rfl⟩ : ∃ m, n = m + 9 := ⟨n - 9, by omega⟩
  have hm : m < (helloBody v random sid c compression (es ++ [(t, payload)])).length := by
    omega
  have h35 : 35 ≤ (List.take m (helloBody v random sid c compression
      (es ++ [(t, payload)]))).length := by
    rw [List.length_take]; omega
  unfold ComputeJA3SFromSegment
  simp only [List.take_succ_cons]
  rw [parseSegment_cons, if_neg (by decide), u16_be16 _ hrv16, if_neg (by tauto),
    parseHandshake_cons _ _ _ _ _ _ h35, if_neg (by decide), u24_be24 _ (by omega),
    if_pos (by rw [List.length_take]; omega)]

/-- Witness of C8: the 55-byte record with one extension, clipped after 54 bytes. -/
theorem C8_clipped_record_rejected_witness :
    ComputeJA3SFromSegment
        ((serverHelloRecord 771 50 771 (List.replicate 32 0) [] 4865 0
            ([] ++ [(43, [3, 4])])).take 54)
      = .ret ({}, some ⟨.LengthErr, 4⟩) :=
  C8_clipped_record_rejected 771 50 771 4865 (List.replicate 32 0) [] 0 [] 43 [3, 4] 54
    (by decide) (by decide) (by decide) (by decide) (by decide) (by decide) (by decide)
/-! ## The parser leaves the caches alone; the accessors are idempotent -/

theorem parseExtensions_caches (j : JA3S) (exs : List Byte) (r : JA3S × Option ParseError)
    (h : parseExtensions j exs = .ret r) :
    r.1.ja3SByteString = j.ja3SByteString ∧ r.1.ja3SHash = j.ja3SHash := by
  unfold parseExtensions at h
  split at h
  · simp at h; subst h; simp
  split at h
  · simp at h; subst h; simp
  simp only [bind_eq_ret] at h
  obtain ⟨e0, -, e1, -, exs', -, h⟩ := h
  split at h
  · simp at h; subst h; simp
  simp only [bind_eq_ret] at h
  obtain ⟨x, -, h⟩ := h
  cases x with
  | error e => simp at h; subst h; simp
  | ok x => simp at h; subst h; simp

theorem parseHello_caches (j : JA3S) (hs : List Byte) (r : JA3S × Option ParseError)
    (h : parseHello j hs = .ret r) :
    r.1.ja3SByteString = j.ja3SByteString ∧ r.1.ja3SHash = j.ja3SHash := by
  unfold parseHello at h
  split at h
  · simp at h; subst h; simp
  simp only [bind_eq_ret] at h
  obtain ⟨h4, -, h5, -, h⟩ := h
  split at h
  · simp at h; subst h; simp
  simp only [bind_eq_ret] at h
  obtain ⟨sid, -, h⟩ := h
  split at h
  · simp at h; subst h; simp
  simp only [bind_eq_ret] at h
  obtain ⟨cs, -, h⟩ := h
  split at h
  · simp at h; subst h; simp
  simp only [bind_eq_ret] at h
  obtain ⟨c0, -, c1, -, h⟩ := h
  split at h
  · simp at h; subst h; simp
  simp only [bind_eq_ret] at h
  obtain ⟨exs, -, h⟩ := h
  simpa using parseExtensions_caches _ _ _ h

theorem parseHandshake_caches (j : JA3S) (hs : List Byte) (r : JA3S × Option ParseError)
    (h : parseHandshake j hs = .ret r) :
    r.1.ja3SByteString = j.ja3SByteString ∧ r.1.ja3SHash = j.ja3SHash := by
  rw [parseHandshake_eq] at h
  split at h
  · simp at h; subst h; simp
  simp only [bind_eq_ret] at h
  obtain ⟨t, -, h⟩ := h
  split at h
  · simp at h; subst h; simp
  simp only [bind_eq_ret] at h
  obtain ⟨h1, -, h2, -, h3, -, rest, -, h⟩ := h
  split at h
  · simp at h; subst h; simp
  simp only [bind_eq_ret] at h
  obtain ⟨hs', -, h⟩ := h
  exact parseHello_caches _ _ _ h

theorem ComputeJA3SFromSegment_caches (payload : List Byte) (r : JA3S × Option ParseError)
    (h : ComputeJA3SFromSegment payload = .ret r) :
    r.1.ja3SByteString = none ∧ r.1.ja3SHash = [] := by
  unfold ComputeJA3SFromSegment parseSegment at h
  split at h
  · simp at h; subst h; simp
  simp only [bind_eq_ret] at h
  obtain ⟨ct, -, h⟩ := h
  split at h
  · simp at h; subst h; simp
  simp only [bind_eq_ret] at h
  obtain ⟨s1, -, s2, -, h⟩ := h
  split at h
  · simp at h; subst h; simp
  simp only [bind_eq_ret] at h
  obtain ⟨hs, -, h⟩ := h
  exact parseHandshake_caches _ _ _ h

theorem bytesOf_marshalJA3S (j : JA3S) :
    bytesOf (marshalJA3S j).ja3SByteString
      = canonicalJA3S j.version j.cipherSuite j.extensions := by
  rw [marshalJA3S_eq]; rfl

theorem callAccessor_inv (md5Sum : List Byte → List Byte) (j0 j : JA3S) (a : Accessor)
    (k : List Byte) (hk : canonicalJA3S j0.version j0.cipherSuite j0.extensions = k)
    (hv : j.version = j0.version) (hc : j.cipherSuite = j0.cipherSuite)
    (hx : j.extensions = j0.extensions)
    (hb : j.ja3SByteString = none ∨ j.ja3SByteString = some k)
    (hh : j.ja3SHash = [] ∨ j.ja3SHash = hexEncode (md5Sum k)) :
    (callAccessor md5Sum j a).1 = (if a = .hash then hexEncode (md5Sum k) else k)
    ∧ (callAccessor md5Sum j a).2.version = j0.version
    ∧ (callAccessor md5Sum j a).2.cipherSuite = j0.cipherSuite
    ∧ (callAccessor md5Sum j a).2.extensions = j0.extensions
    ∧ ((callAccessor md5Sum j a).2.ja3SByteString = none
      ∨ (callAccessor md5Sum j a).2.ja3SByteString = some k)
    ∧ ((callAccessor md5Sum j a).2.ja3SHash = []
      ∨ (callAccessor md5Sum j a).2.ja3SHash = hexEncode (md5Sum k)) := by
  have hget : (GetJA3SByteString j).1 = some k
      ∧ (GetJA3SByteString j).2 = { j with ja3SByteString := some k } := by
    unfold GetJA3SByteString
    rcases hb with hb | hb
    · simp [hb, marshalJA3S_eq, hv, hc, hx, hk]
    · have hne : ¬ (j.ja3SByteString = none) := by rw [hb]; simp
      simp only [hne, if_false]
      constructor
      · exact hb
      · cases j; simp_all
  cases a with
  | byteString =>
    simp only [callAccessor, hget.1, hget.2, bytesOf]
    simp [hv, hc, hx, hh]
  | string =>
    simp only [callAccessor, GetJA3SString, hget.1, hget.2, bytesOf]
    simp [hv, hc, hx, hh]
  | hash =>
    simp only [callAccessor, GetJA3Hash]
    by_cases he : j.ja3SHash = []
    · simp only [he, if_true, hget.1, hget.2, bytesOf]
      simp [hv, hc, hx]
    · rcases hh with hh | hh
      · exact absurd hh he
      · simp only [he, if_false]
        simp [hv, hc, hx, hb, hh]

theorem callAll_inv (md5Sum : List Byte → List Byte) (j0 : JA3S) (k : List Byte)
    (hk : canonicalJA3S j0.version j0.cipherSuite j0.extensions = k) (calls : List Accessor) :
    ∀ j : JA3S, j.version = j0.version → j.cipherSuite = j0.cipherSuite →
      j.extensions = j0.extensions →
      (j.ja3SByteString = none ∨ j.ja3SByteString = some k) →
      (j.ja3SHash = [] ∨ j.ja3SHash = hexEncode (md5Sum k)) →
      callAll md5Sum j calls
        = calls.map (fun a => (a, if a = .hash then hexEncode (md5Sum k) else k)) := by
  induction calls with
  | nil => intro j _ _ _ _ _; rfl
  | cons a rest ih =>
    intro j hv hc hx hb hh
    obtain ⟨h1, h2, h3, h4, h5, h6⟩ := callAccessor_inv md5Sum j0 j a k hk hv hc hx hb hh
    simp only [callAll, List.map_cons]
    rw [h1, ih _ h2 h3 h4 h5 h6]

/-- C9: on an object returned by `ComputeJA3SFromSegment`, in every sequence of accessor calls
each call of `GetJA3Hash` returns the lowercase hexadecimal rendering of the digest of the
byte string `marshalJA3S` computes from (version, cipherSuite, extensions), and each call of
`GetJA3SByteString` or `GetJA3SString` returns that byte string; so every call returns what
the first call of the same accessor returned. -/
theorem C9_accessors_idempotent (md5Sum : List Byte → List Byte) (payload : List Byte)
    (j : JA3S) (err : Option ParseError) (calls : List Accessor)
    (h : ComputeJA3SFromSegment payload = .ret (j, err)) :
    callAll md5Sum j calls
      = calls.map (fun a =>
          (a, if a = .hash then hexEncode (md5Sum (bytesOf (marshalJA3S j).ja3SByteString))
              else bytesOf (marshalJA3S j).ja3SByteString)) := by
  have hc := ComputeJA3SFromSegment_caches payload _ h
  exact callAll_inv md5Sum j _ (bytesOf_marshalJA3S j).symm calls j rfl rfl rfl
    (Or.inl hc.1) (Or.inl hc.2)

/-- Witness of C9: four calls on the object parsed from a record with the extensions 43 and
65281, with a stand-in digest function that keeps the first two bytes of its input. -/
theorem C9_accessors_idempotent_witness :
    callAll (fun b => b.take 2) { version := 771, cipherSuite := 4865, extensions := [43, 65281] }
        [.hash, .byteString, .hash, .string]
      = [Accessor.hash, .byteString, .hash, .string].map (fun a =>
          (a, if a = .hash
              then hexEncode ((fun b => b.take 2) (bytesOf (marshalJA3S
                { version := 771, cipherSuite := 4865, extensions := [43, 65281] }).ja3SByteString))
              else bytesOf (marshalJA3S
                { version := 771, cipherSuite := 4865, extensions := [43, 65281] }).ja3SByteString)) :=
  C9_accessors_idempotent (fun b => b.take 2)
    (serverHelloRecord 771 50 771 (List.replicate 32 0) [] 4865 0 [(43, [3, 4]), (65281, [])])
    { version := 771, cipherSuite := 4865, extensions := [43, 65281] } none
    [.hash, .byteString, .hash, .string] (by decide)
/-! ## Bytes after the declared handshake length -/

theorem parseHandshake_append (j j' : JA3S) (hs t : List Byte)
    (h : parseHandshake j hs = .ret (j', none)) :
    parseHandshake j (hs ++ t) = .ret (j', none) := by
  by_cases hlen : hs.length < 39
  · rw [parseHandshake_short _ _ hlen] at h
    simp at h
  · match hs, hlen with
    | [], hlen => simp at hlen
    | [_], hlen => simp at hlen
    | [_, _], hlen => simp at hlen
    | [_, _, _], hlen => simp at hlen
    | t0 :: h1 :: h2 :: h3 :: body, hlen =>
      have hb : 35 ≤ body.length := by
        simp only [List.length_cons] at hlen; omega
      have hb' : 35 ≤ (body ++ t).length := by
        rw [List.length_append]; omega
      rw [parseHandshake_cons _ _ _ _ _ _ hb] at h
      simp only [List.cons_append]
      rw [parseHandshake_cons _ _ _ _ _ _ hb']
      split at h
      · simp at h
      · rw [if_neg (by assumption)]
        split at h
        · simp at h
        · rename_i hL
          rw [if_neg (by rw [List.length_append]; omega),
            List.take_append_of_le_length (by omega)]
          exact h

/-- C10: when `ComputeJA3SFromSegment` succeeds on a buffer `b`, it succeeds on `b ++ t` for
every byte string `t` and returns the same object (same version, cipherSuite and
extensions): the bytes after the declared handshake length are discarded. -/
theorem C10_trailing_bytes_discarded (b t : List Byte) (j : JA3S)
    (h : ComputeJA3SFromSegment b = .ret (j, none)) :
    ComputeJA3SFromSegment (b ++ t) = .ret (j, none) := by
  unfold ComputeJA3SFromSegment at h ⊢
  match b, h with
  | [], h | [_], h | [_, _], h | [_, _, _], h | [_, _, _, _], h =>
    rw [parseSegment_short _ _ (by simp)] at h
    simp at h
  | ct :: r1 :: r2 :: l1 :: l2 :: hs, h =>
    rw [parseSegment_cons] at h
    simp only [List.cons_append]
    rw [parseSegment_cons]
    split at h
    · simp at h
    · rw [if_neg (by assumption)]
      split at h
      · simp at h
      · rw [if_neg (by assumption)]
        exact parseHandshake_append _ _ _ _ h

/-- Witness of C10: a well-formed record followed by three stray bytes. -/
theorem C10_trailing_bytes_discarded_witness :
    ComputeJA3SFromSegment
        (serverHelloRecord 771 50 771 (List.replicate 32 0) [] 4865 0 [(43, [3, 4])]
          ++ [1, 2, 3])
      = .ret ({ version := 771, cipherSuite := 4865, extensions := [43] }, none) :=
  C10_trailing_bytes_discarded
    (serverHelloRecord 771 50 771 (List.replicate 32 0) [] 4865 0 [(43, [3, 4])]) [1, 2, 3]
    { version := 771, cipherSuite := 4865, extensions := [43] } (by decide)
/-! ## The fuel given to the loop by `parseExtensions` decides it -/

theorem loop_fuel_stable (fuel : Nat) : ∀ (exs : List Byte) (acc : List Nat),
    parseExtensionsLoop fuel exs acc ≠ .hang →
    ∀ k, parseExtensionsLoop (fuel + k) exs acc = parseExtensionsLoop fuel exs acc := by
  induction fuel with
  | zero => intro exs acc h; simp [parseExtensionsLoop] at h
  | succ n ih =>
    intro exs acc h k
    have hk : n + 1 + k = (n + k) + 1 := by omega
    rw [hk]
    rcases exs_cases exs with rfl | ⟨h0, h4⟩ | ⟨a, b, c, d, rest, rfl⟩
    · rw [loop_nil, loop_nil]
    · rw [loop_short _ _ _ h0 h4, loop_short _ _ _ h0 h4]
    · rw [loop_cons] at h ⊢
      rw [loop_cons]
      split
      · rfl
      · rw [if_neg (by assumption)] at h
        exact ih _ _ h k

theorem loop_stuck (a b c d : Byte) (rest : List Byte)
    (hgo : ¬ rest.length < u16 c d) (hzero : (4 + u16 c d) % 2 ^ 16 = 0) :
    ∀ (fuel : Nat) (acc : List Nat),
      parseExtensionsLoop fuel (a :: b :: c :: d :: rest) acc = .hang := by
  intro fuel
  induction fuel with
  | zero => intro acc; simp [parseExtensionsLoop]
  | succ n ih =>
    intro acc
    rw [loop_cons, if_neg hgo, hzero, List.drop_zero]
    exact ih _

theorem parseExtensionsLoop_fuel_exact (n : Nat) : ∀ (exs : List Byte) (acc : List Nat),
    exs.length = n → parseExtensionsLoop (n + 1) exs acc = .hang →
    ∀ fuel, parseExtensionsLoop fuel exs acc = .hang := by
  induction n using Nat.strong_induction_on with
  | _ n ih =>
    intro exs acc hn h fuel
    rcases exs_cases exs with rfl | ⟨h0, h4⟩ | ⟨a, b, c, d, rest, rfl⟩
    · rw [loop_nil] at h; simp at h
    · rw [loop_short _ _ _ h0 h4] at h; simp at h
    · rw [loop_cons] at h
      split at h
      · simp at h
      · rename_i hgo
        by_cases hzero : (4 + u16 c d) % 2 ^ 16 = 0
        · exact loop_stuck a b c d rest hgo hzero fuel acc
        · have hA : (4 + u16 c d) % 2 ^ 16 ≤ 4 + u16 c d := Nat.mod_le _ _
          have hlen : (List.drop ((4 + u16 c d) % 2 ^ 16) (a :: b :: c :: d :: rest)).length
              < n := by
            rw [List.length_drop, hn]
            simp only [List.length_cons] at hn
            omega
          have hdeep : parseExtensionsLoop
              ((List.drop ((4 + u16 c d) % 2 ^ 16) (a :: b :: c :: d :: rest)).length + 1)
              (List.drop ((4 + u16 c d) % 2 ^ 16) (a :: b :: c :: d :: rest))
              (keepType acc (u16 a b)) = .hang := by
            by_contra hne
            have hs := loop_fuel_stable _ _ _ hne
              (n - ((List.drop ((4 + u16 c d) % 2 ^ 16) (a :: b :: c :: d :: rest)).length + 1))
            rw [show (List.drop ((4 + u16 c d) % 2 ^ 16) (a :: b :: c :: d :: rest)).length + 1
              + (n - ((List.drop ((4 + u16 c d) % 2 ^ 16)
                  (a :: b :: c :: d :: rest)).length + 1)) = n by omega, h] at hs
            exact hne hs.symm
          have hall := ih _ hlen _ (keepType acc (u16 a b)) rfl hdeep
          cases fuel with
          | zero => simp [parseExtensionsLoop]
          | succ f =>
            rw [loop_cons, if_neg hgo]
            exact hall f

theorem parseExtensionsLoop_no_panic (fuel : Nat) : ∀ (exs : List Byte) (acc : List Nat),
    parseExtensionsLoop fuel exs acc ≠ .panic := by
  induction fuel with
  | zero => intro exs acc; simp [parseExtensionsLoop]
  | succ n ih =>
    intro exs acc
    rcases exs_cases exs with rfl | ⟨h0, h4⟩ | ⟨a, b, c, d, rest, rfl⟩
    · rw [loop_nil]; simp
    · rw [loop_short _ _ _ h0 h4]; simp
    · rw [loop_cons]
      split
      · simp
      · exact ih _ _
/-! ## Termination of the extension walk -/

theorem parseExtensions_wrapping_entry (j : JA3S) (bl1 bl2 e0 e1 : Byte) (rest : List Byte)
    (hbl : u16 bl1 bl2 ≤ rest.length + 4) (hrest : 65532 ≤ rest.length) :
    parseExtensions j (bl1 :: bl2 :: e0 :: e1 :: 0xFF :: 0xFC :: rest) = .hang := by
  have hlen : u16 0xFF 0xFC = 65532 := by decide
  rw [parseExtensions_cons, if_neg (by simp only [List.length_cons]; omega),
    loop_stuck e0 e1 0xFF 0xFC rest (by rw [hlen]; omega) (by rw [hlen]; norm_num)]
  rfl

theorem wrapping_record_hangs (random payload : List Byte) (hR : random.length = 32)
    (hP : payload.length = 65532) :
    ComputeJA3SFromSegment (serverHelloRecord 771 0 771 random [] 4865 0 [(43, payload)])
      = .hang := by
  have henc : encodeExtensions [(43, payload)] = 0 :: 43 :: 0xFF :: 0xFC :: payload := by
    simp only [encodeExtensions, encodeExtension, be16, hP, List.append_nil]
    rfl
  have hblock : encodeExtensionBlock [(43, payload)]
      = 0 :: 0 :: 0 :: 43 :: 0xFF :: 0xFC :: payload := by
    simp only [encodeExtensionBlock, henc, be16, List.length_cons, hP]
    rfl
  have hbody : helloBody 771 random [] 4865 0 [(43, payload)]
      = 3 :: 3 :: (random ++ 0 :: ([] ++ 0x13 :: 0x01 :: 0
          :: encodeExtensionBlock [(43, payload)])) := by
    simp only [helloBody, be16, List.length_nil, List.append_assoc, List.cons_append,
      List.nil_append]
    rfl
  have hblen : (helloBody 771 random [] 4865 0 [(43, payload)]).length = 65576 := by
    rw [helloBody_length _ _ _ _ _ _ hR, henc]
    simp only [List.length_cons, hP, List.length_nil]
  unfold ComputeJA3SFromSegment
  rw [serverHelloRecord_shape, parseSegment_cons, if_neg (by decide), if_neg (by decide),
    parseHandshake_cons _ _ _ _ _ _ (by rw [hblen]; omega), if_neg (by decide), hblen,
    if_neg (by decide)]
  have htake : List.take (u24 (toByte (65576 / 65536)) (toByte (65576 / 256)) (toByte 65576))
      (helloBody 771 random [] 4865 0 [(43, payload)])
      = helloBody 771 random [] 4865 0 [(43, payload)] := by
    rw [u24_be24 _ (by decide), ← hblen, List.take_length]
  rw [htake, hbody, parseHello_shape _ _ _ _ _ _ _ _ _ _ _ _ _ _ hR (by decide) (by decide),
    hblock]
  exact parseExtensions_wrapping_entry _ _ _ _ _ _ (by rw [hP]; decide) (by rw [hP])

/-- C11 (failing input): on a Server Hello record whose only extension declares and carries a
payload of 65532 bytes, the index `4+exLen` of `exs[4+exLen:]` is computed in uint16 and
wraps to 0, the remaining buffer is not shortened, and the walk never ends. -/
theorem C11_walk_does_not_terminate :
    ComputeJA3SFromSegment wrappingExtensionSegment = .hang :=
  wrapping_record_hangs _ _ (List.length_replicate _ _) (List.length_replicate _ _)
/-! ## The exact outcome of the walk on a region shorter than 65536 bytes -/

theorem loop_outcome (fuel : Nat) : ∀ (exs : List Byte) (acc : List Nat) (f2 : Nat),
    exs.length < fuel → exs.length ≤ f2 → exs.length < 65536 →
    parseExtensionsLoop fuel exs acc
      = .ret (if reachesShortTail f2 exs then .error ⟨.LengthErr, 11⟩
              else .ok (acc ++ dropGrease (typesMet fuel exs))) := by
  induction fuel with
  | zero => intro exs acc f2 h; omega
  | succ n ih =>
    intro exs acc f2 hf hf2 h16
    match exs, hf, hf2, h16 with
    | [], _, _, _ => simp [loop_nil, reachesShortTail, typesMet, dropGrease]
    | [x], _, _, _ =>
      rw [loop_short _ _ _ (by simp) (by simp)]; simp [reachesShortTail]
    | [x, y], _, _, _ =>
      rw [loop_short _ _ _ (by simp) (by simp)]; simp [reachesShortTail]
    | [x, y, z], _, _, _ =>
      rw [loop_short _ _ _ (by simp) (by simp)]; simp [reachesShortTail]
    | a :: b :: c :: d :: rest, hf, hf2, h16 =>
      simp only [List.length_cons] at hf hf2 h16
      obtain ⟨g, rfl⟩ : ∃ g, f2 = g + 1 := ⟨f2 - 1, by omega⟩
      rw [loop_cons]
      unfold reachesShortTail typesMet
      rw [← u16_eq]
      by_cases hL : rest.length < u16 c d
      · simp only [hL, if_true, keepType_eq]
        simp
      · have hmod : (4 + u16 c d) % 2 ^ 16 = 4 + u16 c d := Nat.mod_eq_of_lt (by omega)
        have hdrop : List.drop (4 + u16 c d) (a :: b :: c :: d :: rest)
            = rest.drop (u16 c d) := by
          rw [Nat.add_comm]; simp
        simp only [hL, if_false, hmod, hdrop]
        rw [ih _ _ g (by rw [List.length_drop]; omega) (by rw [List.length_drop]; omega)
          (by rw [List.length_drop]; omega), keepType_eq]
        split
        · rfl
        · rw [List.append_assoc, ← dropGrease_append]; rfl

/-- C14: on an extension region `e` shorter than 65536 bytes `parseExtensions` returns nil when
`e` is empty, LengthErr 9 when `e` has one byte, LengthErr 10 when the declared block length
exceeds `len(e) - 2`, LengthErr 11 when the walk over complete entries from offset 2 reaches
a position with 1, 2 or 3 bytes remaining, and nil in every other case; on the three error
paths the object, and with it the extension list, is left as it was. -/
theorem C14_parseExtensions_outcome (j : JA3S) (e : List Byte) (he : e.length < 65536) :
    parseExtensions j e
      = .ret (if e.length = 0 then (j, none)
              else if e.length = 1 then (j, some ⟨.LengthErr, 9⟩)
              else if e.length - 2 < byteAt e 0 * 256 + byteAt e 1 then
                (j, some ⟨.LengthErr, 10⟩)
              else if reachesShortTail e.length (e.drop 2) then (j, some ⟨.LengthErr, 11⟩)
              else
                ({ j with extensions := dropGrease (typesMet (e.length - 1) (e.drop 2)) },
                 none)) := by
  match e, he with
  | [], _ => simp [parseExtensions_nil]
  | [a], _ => simp [parseExtensions_one]
  | a :: b :: rest, he =>
    simp only [List.length_cons] at he
    rw [parseExtensions_cons, u16_eq]
    have h0 : ¬ ((a :: b :: rest).length = 0) := by simp
    have h1 : ¬ ((a :: b :: rest).length = 1) := by simp
    have hb : byteAt (a :: b :: rest) 0 * 256 + byteAt (a :: b :: rest) 1
        = a.val * 256 + b.val := by
      simp [byteAt]
    have hl : (a :: b :: rest).length - 2 = rest.length := by simp
    have hl1 : (a :: b :: rest).length - 1 = rest.length + 1 := by simp
    rw [if_neg h0, if_neg h1, hb, hl, hl1]
    by_cases hblock : rest.length < a.val * 256 + b.val
    · rw [if_pos hblock, if_pos hblock]
    · rw [if_neg hblock, if_neg hblock,
        loop_outcome _ rest [] (rest.length + 1 + 1) (by omega) (by omega) (by omega),
        ret_bind]
      simp only [List.drop_succ_cons, List.drop_zero, List.length_cons]
      by_cases hs : reachesShortTail (rest.length + 1 + 1) rest = true
      · simp only [hs, if_true]
      · simp only [hs, if_false, List.nil_append]
        rfl

/-- Witness of C14: a region whose second entry leaves two bytes behind. -/
theorem C14_parseExtensions_outcome_witness :
    parseExtensions {} [0, 7, 0, 43, 0, 1, 9, 0, 5]
      = .ret ({}, some ⟨.LengthErr, 11⟩) :=
  C14_parseExtensions_outcome {} [0, 7, 0, 43, 0, 1, 9, 0, 5] (by decide)
/-! ## The declared block length -/

/-- C17: two extension regions that differ only in the value of the 2-byte block length, both
values being at most the number of bytes that follow, give the same result of
`parseExtensions`; and whatever such block length is declared in front of a list of complete
entries, every entry is walked and the types of all of them (GREASE mask apart) are in the
extension list, also those lying after the end of the declared block. -/
theorem C17_block_length_only_gates (j : JA3S) (a b a' b' : Byte) (rest : List Byte)
    (h : a.val * 256 + b.val ≤ rest.length) (h' : a'.val * 256 + b'.val ≤ rest.length) :
    parseExtensions j (a :: b :: rest) = parseExtensions j (a' :: b' :: rest)
    ∧ (∀ es : List (Nat × List Byte), rest = encodeExtensions es →
        (∀ e ∈ es, e.1 < 65536) → rest.length ≤ 65535 →
        parseExtensions j (a :: b :: rest)
          = .ret ({ j with extensions := dropGrease (es.map Prod.fst) }, none)) := by
  have hgen : ∀ x y : Byte, x.val * 256 + y.val ≤ rest.length →
      parseExtensions j (x :: y :: rest)
        = parseExtensionsLoop (rest.length + 1) rest [] >>= fun r =>
          match r with
          | .error e => .ret (j, some e)
          | .ok extensions => .ret ({ j with extensions := extensions }, none) := by
    intro x y hxy
    rw [parseExtensions_cons, u16_eq, if_neg (by omega)]
  refine ⟨by rw [hgen a b h, hgen a' b' h'], ?_⟩
  intro es hes htypes hlen
  subst hes
  have hpay : ∀ e ∈ es, e.1 < 65536 ∧ e.2.length ≤ 65531 := by
    intro e he
    have := payload_le_encodeExtensions es e he
    exact ⟨htypes e he, by omega⟩
  rw [hgen a b h, loop_encoded_all es hpay, ret_bind]

/-- Witness of C17: block lengths 0 and 10 in front of the two entries 43 and 16; with the
declared length 0 both entries lie after the end of the block and both types are listed. -/
theorem C17_block_length_only_gates_witness :
    parseExtensions {} (0 :: 0 :: encodeExtensions [(43, [1, 2]), (16, [])])
        = parseExtensions {} (0 :: 10 :: encodeExtensions [(43, [1, 2]), (16, [])])
    ∧ parseExtensions {} (0 :: 0 :: encodeExtensions [(43, [1, 2]), (16, [])])
        = .ret ({ extensions := [43, 16] }, none) :=
  ⟨(C17_block_length_only_gates {} 0 0 0 10 (encodeExtensions [(43, [1, 2]), (16, [])])
      (by decide) (by decide)).1,
   (C17_block_length_only_gates {} 0 0 0 10 (encodeExtensions [(43, [1, 2]), (16, [])])
      (by decide) (by decide)).2 [(43, [1, 2]), (16, [])] rfl (by decide) (by decide)⟩
/-! ## What the accessors change -/

theorem marshalJA3S_raw (j : JA3S) :
    (marshalJA3S j).version = j.version ∧ (marshalJA3S j).cipherSuite = j.cipherSuite
    ∧ (marshalJA3S j).extensions = j.extensions ∧ (marshalJA3S j).ja3SHash = j.ja3SHash
    ∧ (marshalJA3S j).ja3SByteString ≠ none := by
  rw [marshalJA3S_eq]; simp

theorem GetJA3SByteString_frame (j : JA3S) :
    (GetJA3SByteString j).2.version = j.version
    ∧ (GetJA3SByteString j).2.cipherSuite = j.cipherSuite
    ∧ (GetJA3SByteString j).2.extensions = j.extensions
    ∧ (GetJA3SByteString j).2.ja3SHash = j.ja3SHash
    ∧ (GetJA3SByteString j).2.ja3SByteString ≠ none
    ∧ (GetJA3SByteString j).1 = (GetJA3SByteString j).2.ja3SByteString
    ∧ (∀ b, j.ja3SByteString = some b → (GetJA3SByteString j).2 = j) := by
  unfold GetJA3SByteString
  by_cases h : j.ja3SByteString = none
  · have := marshalJA3S_raw j
    simp only [h, if_true]
    refine ⟨this.1, this.2.1, this.2.2.1, this.2.2.2.1, this.2.2.2.2, trivial, ?_⟩
    intro b hb; simp at hb
  · simp [h]

theorem hexEncode_eq_nil (x : List Byte) : hexEncode x = [] ↔ x = [] := by
  cases x with
  | nil => simp [hexEncode]
  | cons a l => simp [hexEncode]

theorem callAccessor_frame (md5Sum : List Byte → List Byte) (j : JA3S) (a : Accessor) :
    (callAccessor md5Sum j a).2.version = j.version
    ∧ (callAccessor md5Sum j a).2.cipherSuite = j.cipherSuite
    ∧ (callAccessor md5Sum j a).2.extensions = j.extensions
    ∧ (∀ b, j.ja3SByteString = some b → (callAccessor md5Sum j a).2.ja3SByteString = some b)
    ∧ (j.ja3SHash ≠ [] → (callAccessor md5Sum j a).2.ja3SHash = j.ja3SHash)
    ∧ (∀ b, j.ja3SByteString = some b → j.ja3SHash = hexEncode (md5Sum b) →
        (callAccessor md5Sum j a).2.ja3SHash = j.ja3SHash) := by
  obtain ⟨g1, g2, g3, g4, g5, g6, g7⟩ := GetJA3SByteString_frame j
  cases a with
  | byteString =>
    simp only [callAccessor]
    refine ⟨g1, g2, g3, ?_, fun _ => g4, fun _ _ _ => g4⟩
    intro b hb; rw [g7 b hb]; exact hb
  | string =>
    simp only [callAccessor, GetJA3SString]
    refine ⟨g1, g2, g3, ?_, fun _ => g4, fun _ _ _ => g4⟩
    intro b hb; rw [g7 b hb]; exact hb
  | hash =>
    simp only [callAccessor, GetJA3Hash]
    by_cases he : j.ja3SHash = []
    · simp only [he, if_true]
      refine ⟨g1, g2, g3, ?_, fun h => absurd rfl h, ?_⟩
      · intro b hb; rw [g7 b hb]; exact hb
      · intro b hb hh
        rw [g6, g7 b hb, hb]
        exact hh.symm
    · simp [he]

theorem callAllState_frame (md5Sum : List Byte → List Byte) (calls : List Accessor) :
    ∀ j : JA3S,
      (callAllState md5Sum j calls).version = j.version
      ∧ (callAllState md5Sum j calls).cipherSuite = j.cipherSuite
      ∧ (callAllState md5Sum j calls).extensions = j.extensions
      ∧ (∀ b, j.ja3SByteString = some b →
          (callAllState md5Sum j calls).ja3SByteString = some b)
      ∧ (j.ja3SHash ≠ [] → (callAllState md5Sum j calls).ja3SHash = j.ja3SHash)
      ∧ (∀ b, j.ja3SByteString = some b → j.ja3SHash = hexEncode (md5Sum b) →
          (callAllState md5Sum j calls).ja3SHash = j.ja3SHash) := by
  induction calls with
  | nil => intro j; exact ⟨rfl, rfl, rfl, fun _ h => h, fun _ => rfl, fun _ _ _ => rfl⟩
  | cons a rest ih =>
    intro j
    obtain ⟨f1, f2, f3, f4, f5, f6⟩ := callAccessor_frame md5Sum j a
    obtain ⟨i1, i2, i3, i4, i5, i6⟩ := ih (callAccessor md5Sum j a).2
    simp only [callAllState]
    refine ⟨i1.trans f1, i2.trans f2, i3.trans f3, fun b hb => i4 b (f4 b hb), ?_, ?_⟩
    · intro hne
      rw [i5 (by rw [f5 hne]; exact hne), f5 hne]
    · intro b hb hh
      rw [i6 b (f4 b hb) (by rw [f6 b hb hh]; exact hh), f6 b hb hh]

theorem GetJA3Hash_state (md5Sum : List Byte → List Byte) (j : JA3S) :
    (GetJA3Hash md5Sum j).2.ja3SHash ≠ []
    ∨ ∃ b, (GetJA3Hash md5Sum j).2.ja3SByteString = some b
        ∧ (GetJA3Hash md5Sum j).2.ja3SHash = hexEncode (md5Sum b) := by
  obtain ⟨g1, g2, g3, g4, g5, g6, g7⟩ := GetJA3SByteString_frame j
  unfold GetJA3Hash
  by_cases he : j.ja3SHash = []
  · right
    simp only [he, if_true]
    cases hb : (GetJA3SByteString j).2.ja3SByteString with
    | none => exact absurd hb g5
    | some b => exact ⟨b, rfl, by rw [g6, hb]; rfl⟩
  · left
    simp only [he, if_false]
    exact he

/-- C12: every sequence of calls of `GetJA3SByteString`, `GetJA3SString` and `GetJA3Hash`, on
every state, leaves version, cipherSuite and extensions as they were; a byte-string cache that
is set keeps its value, a hash that is set keeps its value, and in particular the cache
`GetJA3SByteString` leaves behind and the hash `GetJA3Hash` leaves behind are not changed by
any later accessor call. -/
theorem C12_accessors_frame (md5Sum : List Byte → List Byte) (j : JA3S)
    (calls : List Accessor) :
    (callAllState md5Sum j calls).version = j.version
    ∧ (callAllState md5Sum j calls).cipherSuite = j.cipherSuite
    ∧ (callAllState md5Sum j calls).extensions = j.extensions
    ∧ (∀ b, j.ja3SByteString = some b → (callAllState md5Sum j calls).ja3SByteString = some b)
    ∧ (j.ja3SHash ≠ [] → (callAllState md5Sum j calls).ja3SHash = j.ja3SHash)
    ∧ (callAllState md5Sum (GetJA3SByteString j).2 calls).ja3SByteString
        = (GetJA3SByteString j).2.ja3SByteString
    ∧ (callAllState md5Sum (GetJA3Hash md5Sum j).2 calls).ja3SHash
        = (GetJA3Hash md5Sum j).2.ja3SHash := by
  obtain ⟨i1, i2, i3, i4, i5, -⟩ := callAllState_frame md5Sum calls j
  refine ⟨i1, i2, i3, i4, i5, ?_, ?_⟩
  · obtain ⟨-, -, -, -, g5, -, -⟩ := GetJA3SByteString_frame j
    cases hb : (GetJA3SByteString j).2.ja3SByteString with
    | none => exact absurd hb g5
    | some b => exact (callAllState_frame md5Sum calls _).2.2.2.1 b hb
  · rcases GetJA3Hash_state md5Sum j with hne | ⟨b, hb, hh⟩
    · exact (callAllState_frame md5Sum calls _).2.2.2.2.1 hne
    · exact (callAllState_frame md5Sum calls _).2.2.2.2.2 b hb hh

/-- Witness of C12: three calls on an object whose byte-string cache and hash are already set
to arbitrary values; both stay as they are. -/
theorem C12_accessors_frame_witness :
    (callAllState (fun b => b.take 2)
        { version := 771, cipherSuite := 4865, extensions := [43], ja3SByteString := some [55],
          ja3SHash := [97] } [.hash, .byteString, .string]).ja3SByteString = some [55]
    ∧ (callAllState (fun b => b.take 2)
        { version := 771, cipherSuite := 4865, extensions := [43], ja3SByteString := some [55],
          ja3SHash := [97] } [.hash, .byteString, .string]).ja3SHash = [97] :=
  ⟨(C12_accessors_frame (fun b => b.take 2)
      { version := 771, cipherSuite := 4865, extensions := [43], ja3SByteString := some [55],
        ja3SHash := [97] } [.hash, .byteString, .string]).2.2.2.1 [55] rfl,
   (C12_accessors_frame (fun b => b.take 2)
      { version := 771, cipherSuite := 4865, extensions := [43], ja3SByteString := some [55],
        ja3SHash := [97] } [.hash, .byteString, .string]).2.2.2.2.1 (by decide)⟩
/-! ## The client accessors -/

theorem client_GetJA3ByteString_inv
    (canon : Nat → List Nat → List Nat → List Nat → List Nat → Option (List Byte) → List Byte)
    (j : JA3) (k : List Byte)
    (hk : canon j.version j.cipherSuites j.extensions j.ellipticCurves j.ellipticCurvePF j.sni
      = k)
    (hb : j.ja3ByteString = none ∨ j.ja3ByteString = some k) :
    (j.GetJA3ByteString canon).1 = some k
    ∧ (j.GetJA3ByteString canon).2 = { j with ja3ByteString := some k } := by
  unfold JA3.GetJA3ByteString
  rcases hb with hb | hb
  · simp [hb, JA3.marshalJA3, hk]
  · have hne : ¬ (j.ja3ByteString = none) := by rw [hb]; simp
    simp only [hne, if_false]
    constructor
    · exact hb
    · cases j; simp_all

theorem callClientAccessor_inv
    (canon : Nat → List Nat → List Nat → List Nat → List Nat → Option (List Byte) → List Byte)
    (md5Sum : List Byte → List Byte) (j0 j : JA3) (a : ClientAccessor) (k : List Byte)
    (hk : canon j0.version j0.cipherSuites j0.extensions j0.ellipticCurves j0.ellipticCurvePF
      j0.sni = k)
    (h1 : j.version = j0.version) (h2 : j.cipherSuites = j0.cipherSuites)
    (h3 : j.extensions = j0.extensions) (h4 : j.ellipticCurves = j0.ellipticCurves)
    (h5 : j.ellipticCurvePF = j0.ellipticCurvePF) (h6 : j.sni = j0.sni)
    (hb : j.ja3ByteString = none ∨ j.ja3ByteString = some k)
    (hs : j.ja3String = [] ∨ j.ja3String = k)
    (hh : j.ja3Hash = [] ∨ j.ja3Hash = hexEncode (md5Sum k)) :
    (callClientAccessor canon md5Sum j a).1
        = clientValue k (hexEncode (md5Sum k)) (bytesOf j0.sni) a
    ∧ (callClientAccessor canon md5Sum j a).2.version = j0.version
    ∧ (callClientAccessor canon md5Sum j a).2.cipherSuites = j0.cipherSuites
    ∧ (callClientAccessor canon md5Sum j a).2.extensions = j0.extensions
    ∧ (callClientAccessor canon md5Sum j a).2.ellipticCurves = j0.ellipticCurves
    ∧ (callClientAccessor canon md5Sum j a).2.ellipticCurvePF = j0.ellipticCurvePF
    ∧ (callClientAccessor canon md5Sum j a).2.sni = j0.sni
    ∧ ((callClientAccessor canon md5Sum j a).2.ja3ByteString = none
      ∨ (callClientAccessor canon md5Sum j a).2.ja3ByteString = some k)
    ∧ ((callClientAccessor canon md5Sum j a).2.ja3String = []
      ∨ (callClientAccessor canon md5Sum j a).2.ja3String = k)
    ∧ ((callClientAccessor canon md5Sum j a).2.ja3Hash = []
      ∨ (callClientAccessor canon md5Sum j a).2.ja3Hash = hexEncode (md5Sum k)) := by
  have hk' : canon j.version j.cipherSuites j.extensions j.ellipticCurves j.ellipticCurvePF
      j.sni = k := by
    rw [h1, h2, h3, h4, h5, h6]; exact hk
  obtain ⟨g1, g2⟩ := client_GetJA3ByteString_inv canon j k hk' hb
  cases a with
  | byteString =>
    simp only [callClientAccessor, g1, g2, bytesOf, clientValue]
    simp [h1, h2, h3, h4, h5, h6, hs, hh]
  | string =>
    simp only [callClientAccessor, JA3.GetJA3String, clientValue]
    by_cases he : j.ja3String = []
    · simp only [he, if_true, g1, g2, bytesOf]
      simp [h1, h2, h3, h4, h5, h6, hh]
    · rcases hs with hs | hs
      · exact absurd hs he
      · simp only [he, if_false]
        simp [h1, h2, h3, h4, h5, h6, hb, hs, hh]
  | hash =>
    simp only [callClientAccessor, JA3.GetJA3Hash, clientValue]
    by_cases he : j.ja3Hash = []
    · simp only [he, if_true, g1, g2, bytesOf]
      simp [h1, h2, h3, h4, h5, h6, hs]
    · rcases hh with hh | hh
      · exact absurd hh he
      · simp only [he, if_false]
        simp [h1, h2, h3, h4, h5, h6, hb, hs, hh]
  | sni =>
    simp only [callClientAccessor, JA3.GetSNI, clientValue]
    simp [h1, h2, h3, h4, h5, h6, hb, hs, hh]

theorem callAllClient_inv
    (canon : Nat → List Nat → List Nat → List Nat → List Nat → Option (List Byte) → List Byte)
    (md5Sum : List Byte → List Byte) (j0 : JA3) (k : List Byte)
    (hk : canon j0.version j0.cipherSuites j0.extensions j0.ellipticCurves j0.ellipticCurvePF
      j0.sni = k) (calls : List ClientAccessor) :
    ∀ j : JA3, j.version = j0.version → j.cipherSuites = j0.cipherSuites →
      j.extensions = j0.extensions → j.ellipticCurves = j0.ellipticCurves →
      j.ellipticCurvePF = j0.ellipticCurvePF → j.sni = j0.sni →
      (j.ja3ByteString = none ∨ j.ja3ByteString = some k) →
      (j.ja3String = [] ∨ j.ja3String = k) →
      (j.ja3Hash = [] ∨ j.ja3Hash = hexEncode (md5Sum k)) →
      callAllClient canon md5Sum j calls
        = calls.map (fun a => (a, clientValue k (hexEncode (md5Sum k)) (bytesOf j0.sni) a)) := by
  induction calls with
  | nil => intro j _ _ _ _ _ _ _ _ _; rfl
  | cons a rest ih =>
    intro j h1 h2 h3 h4 h5 h6 hb hs hh
    obtain ⟨r, s1, s2, s3, s4, s5, s6, sb, ss, sh⟩ :=
      callClientAccessor_inv canon md5Sum j0 j a k hk h1 h2 h3 h4 h5 h6 hb hs hh
    simp only [callAllClient, List.map_cons]
    rw [r, ih _ s1 s2 s3 s4 s5 s6 sb ss sh]

/-- C13: on a `JA3` object whose derived values are still unset, with `marshalJA3` storing a
function `canon` of the raw fields, every call in every sequence of accessor calls returns:
the stored canonical byte string for `GetJA3ByteString`, the same bytes as text for
`GetJA3String`, the lowercase hexadecimal digest of those bytes for `GetJA3Hash`, and the
stored server-name bytes (none when no server name was stored) for `GetSNI`; so repeated
calls return what the first call returned. -/
theorem C13_client_accessors_consistent
    (canon : Nat → List Nat → List Nat → List Nat → List Nat → Option (List Byte) → List Byte)
    (md5Sum : List Byte → List Byte) (j : JA3) (calls : List ClientAccessor)
    (hb : j.ja3ByteString = none) (hs : j.ja3String = []) (hh : j.ja3Hash = []) :
    callAllClient canon md5Sum j calls
        = calls.map (fun a =>
            (a, clientValue (bytesOf (j.marshalJA3 canon).ja3ByteString)
                  (hexEncode (md5Sum (bytesOf (j.marshalJA3 canon).ja3ByteString)))
                  (bytesOf j.sni) a))
    ∧ (j.sni = none → (j.GetSNI).1 = []) := by
  refine ⟨?_, ?_⟩
  · exact callAllClient_inv canon md5Sum j _ rfl calls j rfl rfl rfl rfl rfl rfl
      (Or.inl hb) (Or.inl hs) (Or.inl hh)
  · intro h
    simp [JA3.GetSNI, h, bytesOf]

/-- Witness of C13: five calls on a fresh object with the server name `ab`, a stand-in canonical
string made of the low byte of the version, and a stand-in digest. -/
theorem C13_client_accessors_consistent_witness :
    callAllClient (fun v _ _ _ _ _ => [toByte v]) (fun b => b.take 2)
        { version := 771, sni := some [97, 98] } [.string, .hash, .byteString, .sni, .hash]
      = [(.string, [3]), (.hash, [48, 51]), (.byteString, [3]), (.sni, [97, 98]),
         (.hash, [48, 51])] :=
  (C13_client_accessors_consistent (fun v _ _ _ _ _ => [toByte v]) (fun b => b.take 2)
    { version := 771, sni := some [97, 98] } [.string, .hash, .byteString, .sni, .hash]
    rfl rfl rfl).1
/-! ## The canonical string determines the raw fields -/

theorem digitByte_inj (d e : Nat) (hd : d < 10) (he : e < 10)
    (h : digitByte d = digitByte e) : d = e := by
  have h1 := digitByte_val d hd
  have h2 := digitByte_val e he
  rw [h] at h1
  omega

theorem map_digitByte_inj : ∀ (xs ys : List Nat), (∀ d ∈ xs, d < 10) → (∀ d ∈ ys, d < 10) →
    xs.map digitByte = ys.map digitByte → xs = ys := by
  intro xs
  induction xs with
  | nil => intro ys _ _ h; cases ys with
    | nil => rfl
    | cons y ys => simp at h
  | cons x xs ih =>
    intro ys hx hy h
    cases ys with
    | nil => simp at h
    | cons y ys =>
      simp only [List.map_cons, List.cons.injEq] at h
      have hxy := digitByte_inj x y (hx x (List.mem_cons_self _ _))
        (hy y (List.mem_cons_self _ _)) h.1
      have := ih ys (fun d hd => hx d (List.mem_cons_of_mem _ hd))
        (fun d hd => hy d (List.mem_cons_of_mem _ hd)) h.2
      rw [hxy, this]

theorem decimal_ne_zero_digit (n : Nat) (hn : n ≠ 0) : decimal n ≠ [48] := by
  intro h
  unfold decimal at h
  rw [if_neg hn] at h
  have h0 : ((Nat.digits 10 n).reverse).map digitByte = [0].map digitByte := by
    rw [h]; rfl
  have hrev := map_digitByte_inj _ _
    (fun d hd => Nat.digits_lt_base (by decide : 1 < 10) (List.mem_reverse.mp hd))
    (by decide) h0
  have hd : Nat.digits 10 n = [0] := by
    have := congrArg List.reverse hrev
    simpa using this
  have hlast := Nat.getLast_digit_ne_zero 10 hn
  simp [hd] at hlast

theorem decimal_inj (n m : Nat) (h : decimal n = decimal m) : n = m := by
  by_cases hn : n = 0
  · by_cases hm : m = 0
    · rw [hn, hm]
    · exfalso
      apply decimal_ne_zero_digit m hm
      rw [← h, hn]; rfl
  · by_cases hm : m = 0
    · exfalso
      apply decimal_ne_zero_digit n hn
      rw [h, hm]; rfl
    · unfold decimal at h
      rw [if_neg hn, if_neg hm] at h
      have hrev := map_digitByte_inj _ _
        (fun d hd => Nat.digits_lt_base (by decide : 1 < 10) (List.mem_reverse.mp hd))
        (fun d hd => Nat.digits_lt_base (by decide : 1 < 10) (List.mem_reverse.mp hd)) h
      have hd : Nat.digits 10 n = Nat.digits 10 m := by
        have := congrArg List.reverse hrev
        simpa using this
      exact Nat.digits_inj_iff.mp hd

theorem split_at_separator (sep : Byte) : ∀ (x x' y y' : List Byte), sep ∉ x → sep ∉ x' →
    x ++ sep :: y = x' ++ sep :: y' → x = x' ∧ y = y' := by
  intro x
  induction x with
  | nil =>
    intro x' y y' _ hx' h
    cases x' with
    | nil => simp at h; exact ⟨rfl, h⟩
    | cons a t =>
      simp only [List.nil_append, List.cons_append, List.cons.injEq] at h
      exact absurd (h.1 ▸ List.mem_cons_self _ _) hx'
  | cons a t ih =>
    intro x' y y' hx hx' h
    cases x' with
    | nil =>
      simp only [List.nil_append, List.cons_append, List.cons.injEq] at h
      exact absurd (h.1 ▸ List.mem_cons_self _ _) hx
    | cons a' t' =>
      simp only [List.cons_append, List.cons.injEq] at h
      obtain ⟨e1, e2⟩ := ih t' y y' (fun hm => hx (List.mem_cons_of_mem _ hm))
        (fun hm => hx' (List.mem_cons_of_mem _ hm)) h.2
      exact ⟨by rw [h.1, e1], e2⟩

theorem intercalate_cons_cons (sep : Byte) (a b : List Byte) (l : List (List Byte)) :
    List.intercalate [sep] (a :: b :: l) = a ++ sep :: List.intercalate [sep] (b :: l) := by
  simp [List.intercalate]

theorem intercalate_inj (sep : Byte) : ∀ (xs ys : List (List Byte)),
    (∀ a ∈ xs, a ≠ [] ∧ sep ∉ a) → (∀ a ∈ ys, a ≠ [] ∧ sep ∉ a) →
    List.intercalate [sep] xs = List.intercalate [sep] ys → xs = ys := by
  intro xs
  induction xs with
  | nil =>
    intro ys _ hy h
    match ys, hy, h with
    | [], _, _ => rfl
    | [a], hy, h =>
      simp [List.intercalate] at h
      exact absurd h (hy a (List.mem_cons_self _ _)).1
    | a :: b :: l, hy, h =>
      rw [intercalate_cons_cons] at h
      simp [List.intercalate] at h
  | cons a l ih =>
    intro ys hx hy h
    have ha := hx a (List.mem_cons_self _ _)
    have hl : ∀ z ∈ l, z ≠ [] ∧ sep ∉ z := fun z hz => hx z (List.mem_cons_of_mem _ hz)
    match l, ys, hx, hy, h, ih, hl with
    | [], [], _, _, h, _, _ =>
      simp [List.intercalate] at h
      exact absurd h ha.1
    | [], [a'], _, _, h, _, _ =>
      simp [List.intercalate] at h
      rw [h]
    | [], a' :: b' :: l', _, _, h, _, _ =>
      rw [intercalate_cons_cons] at h
      have : List.intercalate [sep] [a] = a := by simp [List.intercalate]
      rw [this] at h
      exact absurd (h ▸ List.mem_append_right _ (List.mem_cons_self _ _)) ha.2
    | b :: l, [], _, _, h, _, _ =>
      rw [intercalate_cons_cons] at h
      simp [List.intercalate] at h
    | b :: l, [a'], _, hy, h, _, _ =>
      rw [intercalate_cons_cons] at h
      have : List.intercalate [sep] [a'] = a' := by simp [List.intercalate]
      rw [this] at h
      exact absurd (h ▸ List.mem_append_right _ (List.mem_cons_self _ _))
        (hy a' (List.mem_cons_self _ _)).2
    | b :: l, a' :: b' :: l', _, hy, h, ih, hl =>
      rw [intercalate_cons_cons, intercalate_cons_cons] at h
      obtain ⟨e1, e2⟩ := split_at_separator sep _ _ _ _ ha.2
        (hy a' (List.mem_cons_self _ _)).2 h
      rw [e1, ih (b' :: l') hl (fun z hz => hy z (List.mem_cons_of_mem _ hz)) e2]
theorem not_mem_decimal (sep : Byte) (hsep : sep.val < 48) (n : Nat) : sep ∉ decimal n := by
  intro h
  have := decimal_digits n sep h
  omega

theorem canonicalJA3S_inj (v c v' c' : Nat) (x x' : List Nat)
    (h : canonicalJA3S v c x = canonicalJA3S v' c' x') : v = v' ∧ c = c' ∧ x = x' := by
  have hshape : ∀ (a b : Nat) (l : List Nat), canonicalJA3S a b l
      = decimal a ++ commaByte
          :: (decimal b ++ commaByte :: List.intercalate [dashByte] (l.map decimal)) := by
    intro a b l; simp [canonicalJA3S]
  rw [hshape, hshape] at h
  obtain ⟨e1, h⟩ := split_at_separator commaByte _ _ _ _
    (not_mem_decimal _ (by decide) v) (not_mem_decimal _ (by decide) v') h
  obtain ⟨e2, h⟩ := split_at_separator commaByte _ _ _ _
    (not_mem_decimal _ (by decide) c) (not_mem_decimal _ (by decide) c') h
  have hel : ∀ l : List Nat, ∀ a ∈ l.map decimal, a ≠ [] ∧ dashByte ∉ a := by
    intro l a ha
    obtain ⟨n, -, rfl⟩ := List.mem_map.mp ha
    exact ⟨decimal_ne_nil n, not_mem_decimal _ (by decide) n⟩
  have e3 := intercalate_inj dashByte _ _ (hel x) (hel x') h
  have hinj : Function.Injective decimal := fun a b hab => decimal_inj a b hab
  exact ⟨decimal_inj _ _ e1, decimal_inj _ _ e2, List.map_injective_iff.mpr hinj e3⟩

/-- C15: `marshalJA3S` is injective in the raw fields: two objects with equal canonical byte
strings have equal version, equal cipherSuite and equal extension lists (same length, same
order); so two objects whose extension lists differ, for instance by the order of the
entries, have different canonical strings. -/
theorem C15_marshalJA3S_injective (j j' : JA3S) :
    ((marshalJA3S j).ja3SByteString = (marshalJA3S j').ja3SByteString →
      j.version = j'.version ∧ j.cipherSuite = j'.cipherSuite ∧ j.extensions = j'.extensions)
    ∧ (j.extensions ≠ j'.extensions →
      (marshalJA3S j).ja3SByteString ≠ (marshalJA3S j').ja3SByteString) := by
  have key : (marshalJA3S j).ja3SByteString = (marshalJA3S j').ja3SByteString →
      j.version = j'.version ∧ j.cipherSuite = j'.cipherSuite
        ∧ j.extensions = j'.extensions := by
    intro h
    rw [marshalJA3S_eq, marshalJA3S_eq] at h
    simp only [Option.some.injEq] at h
    exact canonicalJA3S_inj _ _ _ _ _ _ h
  exact ⟨key, fun hne h => hne (key h).2.2⟩

/-- Witness of C15: the extension lists [43, 10] and [10, 43] give different strings. -/
theorem C15_marshalJA3S_injective_witness :
    (marshalJA3S { version := 771, cipherSuite := 4865, extensions := [43, 10] }).ja3SByteString
      ≠ (marshalJA3S
          { version := 771, cipherSuite := 4865, extensions := [10, 43] }).ja3SByteString :=
  (C15_marshalJA3S_injective { version := 771, cipherSuite := 4865, extensions := [43, 10] }
    { version := 771, cipherSuite := 4865, extensions := [10, 43] }).2 (by decide)
/-! ## The capacity of the canonical string -/

theorem decimal_length_le (n : Nat) (h : n < 65536) : (decimal n).length ≤ 5 := by
  unfold decimal
  split
  · simp
  · rename_i hn
    simp only [List.length_map, List.length_reverse]
    by_contra hlen
    have h6 : 6 ≤ (Nat.digits 10 n).length := by omega
    have hpow := Nat.base_pow_length_digits_le 10 n (by decide) hn
    have hmono : 10 ^ 6 ≤ 10 ^ (Nat.digits 10 n).length :=
      Nat.pow_le_pow_right (by decide) h6
    omega

theorem appendUint_length_le (bs : List Byte) (n : Nat) (h : n < 65536) :
    (appendUint bs n).length ≤ bs.length + 5 := by
  rw [appendUint_eq, List.length_append]
  have := decimal_length_le n h
  omega

theorem marshalLoopStates_length (exts : List Nat) : ∀ (bs : List Byte),
    (∀ x ∈ exts, x < 65536) →
    ∀ s ∈ marshalLoopStates bs exts, s.length ≤ bs.length + 6 * exts.length := by
  induction exts with
  | nil => intro bs _ s hs; simp [marshalLoopStates] at hs
  | cons x xs ih =>
    intro bs hx s hs
    have h1 := appendUint_length_le bs x (hx x (List.mem_cons_self _ _))
    simp only [marshalLoopStates, List.mem_cons] at hs
    simp only [List.length_cons]
    rcases hs with rfl | rfl | hs
    · omega
    · rw [List.length_append, List.length_singleton]; omega
    · have := ih (appendUint bs x ++ [dashByte])
        (fun y hy => hx y (List.mem_cons_of_mem _ hy)) s hs
      rw [List.length_append, List.length_singleton] at this
      omega

theorem foldl_appendUint_length (exts : List Nat) : ∀ (bs : List Byte),
    (∀ x ∈ exts, x < 65536) →
    (exts.foldl (fun bs val => appendUint bs val ++ [dashByte]) bs).length
      ≤ bs.length + 6 * exts.length := by
  induction exts with
  | nil => intro bs _; simp
  | cons x xs ih =>
    intro bs hx
    have h1 := appendUint_length_le bs x (hx x (List.mem_cons_self _ _))
    have := ih (appendUint bs x ++ [dashByte]) (fun y hy => hx y (List.mem_cons_of_mem _ hy))
    rw [List.length_append, List.length_singleton] at this
    simp only [List.foldl_cons, List.length_cons]
    omega

theorem canonicalJA3S_length (v c : Nat) (exts : List Nat) (hv : v < 65536) (hc : c < 65536)
    (hx : ∀ x ∈ exts, x < 65536) :
    (canonicalJA3S v c exts).length
      ≤ if exts.length = 0 then 12 else 11 + 6 * exts.length := by
  have hv5 := decimal_length_le v hv
  have hc5 := decimal_length_le c hc
  cases exts with
  | nil =>
    simp only [canonicalJA3S, List.map_nil, List.length_append, List.length_singleton,
      List.length_nil, if_true]
    have : (List.intercalate [dashByte] ([] : List (List Byte))).length = 0 := by
      simp [List.intercalate]
    omega
  | cons x xs =>
    have hj := join_dash x xs
    have hf := foldl_appendUint_length (x :: xs) [] hx
    rw [foldl_appendUint, hj] at hf
    simp only [List.nil_append, List.length_append, List.length_singleton, List.length_nil,
      List.length_cons] at hf
    simp only [canonicalJA3S, List.length_append, List.length_singleton, List.length_cons,
      List.length_nil, Nat.add_one_ne_zero, if_false]
    omega

/-- C18: for an object with 16-bit fields and `n` extensions, every value the byte string under
construction takes in `marshalJA3S`, also the one before the last dash is removed, is at
most `6*(1+cipherSuiteHeaderLen+n) - 1` bytes long, and the stored canonical string is at most
12 bytes long for `n = 0` and at most `11 + 6n` bytes long for `n >= 1`. -/
theorem C18_capacity_sufficient (j : JA3S) (hv : j.version < 65536)
    (hc : j.cipherSuite < 65536) (hx : ∀ x ∈ j.extensions, x < 65536) :
    (∀ s ∈ marshalStates j,
      s.length ≤ 6 * (1 + cipherSuiteHeaderLen + j.extensions.length) - 1)
    ∧ (j.extensions.foldl (fun bs val => appendUint bs val ++ [dashByte])
          (appendUint (appendUint [] j.version ++ [commaByte]) j.cipherSuite
            ++ [commaByte])).length
        ≤ 6 * (1 + cipherSuiteHeaderLen + j.extensions.length) - 1
    ∧ (bytesOf (marshalJA3S j).ja3SByteString).length
        ≤ (if j.extensions.length = 0 then 12 else 11 + 6 * j.extensions.length) := by
  have h1 := appendUint_length_le [] j.version hv
  have h3 := appendUint_length_le (appendUint [] j.version ++ [commaByte]) j.cipherSuite hc
  rw [List.length_append, List.length_singleton] at h3
  simp only [List.length_nil] at h1
  have hfin : (bytesOf (marshalJA3S j).ja3SByteString).length
      ≤ (if j.extensions.length = 0 then 12 else 11 + 6 * j.extensions.length) := by
    rw [bytesOf_marshalJA3S]
    exact canonicalJA3S_length _ _ _ hv hc hx
  have hfold := foldl_appendUint_length j.extensions
    (appendUint (appendUint [] j.version ++ [commaByte]) j.cipherSuite ++ [commaByte]) hx
  rw [List.length_append, List.length_singleton] at hfold
  refine ⟨?_, ?_, hfin⟩
  · intro s hs
    simp only [marshalStates, cipherSuiteHeaderLen, List.mem_append, List.mem_cons,
      List.mem_singleton, List.not_mem_nil, or_false] at hs ⊢
    rcases hs with ((rfl | rfl | rfl | rfl | rfl) | hs) | rfl
    · simp
    · omega
    · rw [List.length_append, List.length_singleton]; omega
    · omega
    · rw [List.length_append, List.length_singleton]; omega
    · have := marshalLoopStates_length j.extensions _ hx s hs
      rw [List.length_append, List.length_singleton] at this
      omega
    · split at hfin <;> omega
  · simp only [cipherSuiteHeaderLen]
    omega

/-- Witness of C18: two extensions of five digits each; the stored string has 23 bytes. -/
theorem C18_capacity_sufficient_witness :
    (bytesOf (marshalJA3S fiveDigitObject).ja3SByteString).length
      ≤ (if fiveDigitObject.extensions.length = 0 then 12
         else 11 + 6 * fiveDigitObject.extensions.length) :=
  (C18_capacity_sufficient fiveDigitObject (by decide) (by decide) (by decide)).2.2
/-! ## The skipped fields -/

theorem bind_congr_ret {α β : Type} (x : Exec α) (f g : α → Exec β)
    (h : ∀ a, x = .ret a → f a = g a) : (x >>= f) = (x >>= g) := by
  cases x with
  | ret a => simp only [ret_bind]; exact h a rfl
  | panic => rfl
  | hang => rfl

theorem index_congr (s s' : List Byte) (i : Nat) (h : s[i]? = s'[i]?) :
    index s' i = index s i := by
  unfold index; rw [h]

theorem index_eq_ret_iff (s : List Byte) (i : Nat) (a : Byte) :
    index s i = .ret a ↔ s[i]? = some a := by
  unfold index
  cases s[i]? <;> simp

theorem parseHello_skip (j : JA3S) (T T' : List Byte) (s : Nat)
    (hs : ∀ x, T[38]? = some x → x.val = s) (hlen : T.length = T'.length)
    (hag : ∀ i, ¬ ((6 ≤ i ∧ i < 38) ∨ (39 ≤ i ∧ i < 39 + s) ∨ i = 41 + s) → T[i]? = T'[i]?) :
    parseHello j T = parseHello j T' := by
  have i4 := index_congr T T' 4 (hag 4 (by omega))
  have i5 := index_congr T T' 5 (hag 5 (by omega))
  have i38 := index_congr T T' 38 (hag 38 (by omega))
  unfold parseHello
  simp only [handshakeHeaderLen, randomDataLen, sessionIDHeaderLen, cipherSuiteHeaderLen,
    compressMethodHeaderLen, Nat.reduceAdd]
  rw [← hlen, i4, i5, i38]
  by_cases c1 : T.length < 6
  · rw [if_pos c1, if_pos c1]
  rw [if_neg c1, if_neg c1]
  apply bind_congr_ret; intro h4 _
  apply bind_congr_ret; intro h5 _
  by_cases c2 : u16 h4 h5 &&& tlsVersionBitmask ≠ 0x0300 ∧ u16 h4 h5 ≠ tls13
  · rw [if_pos c2, if_pos c2]
  rw [if_neg c2, if_neg c2]
  apply bind_congr_ret; intro sid hsid
  have hsv : sid.val = s := hs sid ((index_eq_ret_iff _ _ _).mp hsid)
  by_cases c3 : T.length < 39 + sid.val
  · rw [if_pos c3, if_pos c3]
  rw [if_neg c3, if_neg c3, sliceFrom_of_le T _ (by omega),
    sliceFrom_of_le T' _ (by omega), ret_bind, ret_bind]
  have hl : (List.drop (39 + sid.val) T').length = (List.drop (39 + sid.val) T).length := by
    rw [List.length_drop, List.length_drop, hlen]
  have j0 := index_congr (List.drop (39 + sid.val) T) (List.drop (39 + sid.val) T') 0
    (by rw [List.getElem?_drop, List.getElem?_drop]; exact hag _ (by omega))
  have j1 := index_congr (List.drop (39 + sid.val) T) (List.drop (39 + sid.val) T') 1
    (by rw [List.getElem?_drop, List.getElem?_drop]; exact hag _ (by omega))
  rw [hl, j0, j1]
  by_cases c4 : (List.drop (39 + sid.val) T).length < 2
  · rw [if_pos c4, if_pos c4]
  rw [if_neg c4, if_neg c4]
  apply bind_congr_ret; intro c0 _
  apply bind_congr_ret; intro c1' _
  by_cases c5 : (List.drop (39 + sid.val) T).length < 3
  · rw [if_pos c5, if_pos c5]
  rw [if_neg c5, if_neg c5, sliceFrom_of_le _ _ (by omega),
    sliceFrom_of_le _ _ (by rw [hl]; omega), ret_bind, ret_bind]
  have htail : List.drop 3 (List.drop (39 + sid.val) T')
      = List.drop 3 (List.drop (39 + sid.val) T) := by
    apply List.ext_getElem?
    intro i
    rw [List.getElem?_drop, List.getElem?_drop, List.getElem?_drop, List.getElem?_drop]
    exact (hag _ (by omega)).symm
  rw [htail]
theorem parseHandshake_skip (j : JA3S) (hs hs' : List Byte) (s : Nat)
    (h38 : ∀ x, hs[38]? = some x → x.val = s) (hlen : hs.length = hs'.length)
    (hag : ∀ i, ¬ ((6 ≤ i ∧ i < 38) ∨ (39 ≤ i ∧ i < 39 + s) ∨ i = 41 + s) →
      hs[i]? = hs'[i]?) :
    parseHandshake j hs = parseHandshake j hs' := by
  have i0 := index_congr hs hs' 0 (hag 0 (by omega))
  have i1 := index_congr hs hs' 1 (hag 1 (by omega))
  have i2 := index_congr hs hs' 2 (hag 2 (by omega))
  have i3 := index_congr hs hs' 3 (hag 3 (by omega))
  rw [parseHandshake_eq, parseHandshake_eq, ← hlen, i0, i1, i2, i3]
  by_cases c0 : hs.length < 39
  · rw [if_pos c0, if_pos c0]
  rw [if_neg c0, if_neg c0]
  apply bind_congr_ret; intro t _
  by_cases c1 : t.val ≠ 2
  · rw [if_pos c1, if_pos c1]
  rw [if_neg c1, if_neg c1]
  apply bind_congr_ret; intro a1 _
  apply bind_congr_ret; intro a2 _
  apply bind_congr_ret; intro a3 _
  rw [sliceFrom_of_le hs 4 (by omega), sliceFrom_of_le hs' 4 (by omega), ret_bind, ret_bind,
    List.length_drop, List.length_drop, ← hlen]
  by_cases c2 : hs.length - 4 < u24 a1 a2 a3
  · rw [if_pos c2, if_pos c2]
  rw [if_neg c2, if_neg c2]
  have hn : (u24 a1 a2 a3 + 4) % 2 ^ 32 ≤ hs.length := by
    have := Nat.mod_le (u24 a1 a2 a3 + 4) (2 ^ 32)
    omega
  rw [sliceTo_of_le hs _ hn, sliceTo_of_le hs' _ (by omega), ret_bind, ret_bind]
  apply parseHello_skip j _ _ s
  · intro x hx
    rw [List.getElem?_take] at hx
    split at hx
    · exact h38 x hx
    · simp at hx
  · rw [List.length_take, List.length_take, hlen]
  · intro i hi
    rw [List.getElem?_take, List.getElem?_take, hag i hi]

/-- C16: two buffers of equal length that agree at every offset outside the record length
(3 and 4), the random (11 to 42), the session-id content and the compression-method selector
have the same outcome of `ComputeJA3SFromSegment`: the same error with the same object, the
same parsed object, or the same failure to return. -/
theorem C16_skipped_fields_ignored (b b' : List Byte) (hlen : b.length = b'.length)
    (hsame : ∀ i, i < b.length → skippedOffset b i = false → b[i]? = b'[i]?) :
    ComputeJA3SFromSegment b = ComputeJA3SFromSegment b' := by
  have hag : ∀ i, skippedOffset b i = false → b[i]? = b'[i]? := by
    intro i hi
    by_cases hlt : i < b.length
    · exact hsame i hlt hi
    · rw [List.getElem?_eq_none (by omega), List.getElem?_eq_none (by omega)]
  have hoff : ∀ i, ¬ (i = 3 ∨ i = 4 ∨ (11 ≤ i ∧ i < 43)
      ∨ (44 ≤ i ∧ i < 44 + byteAt b 43) ∨ i = 46 + byteAt b 43) → b[i]? = b'[i]? := by
    intro i hi
    apply hag
    simp only [skippedOffset, Bool.or_eq_false_iff, Bool.and_eq_false_iff,
      decide_eq_false_iff_not]
    omega
  unfold ComputeJA3SFromSegment
  by_cases hshort : b.length < 5
  · rw [parseSegment_short _ _ hshort, parseSegment_short _ _ (by omega)]
  match b, b', hlen, hshort, hoff with
  | [], _, _, hshort, _ | [_], _, _, hshort, _ | [_, _], _, _, hshort, _
  | [_, _, _], _, _, hshort, _ | [_, _, _, _], _, _, hshort, _ => simp at hshort
  | _ :: _ :: _ :: _ :: _ :: _, [], hlen, _, _ => simp at hlen
  | _ :: _ :: _ :: _ :: _ :: _, [_], hlen, _, _ => simp at hlen
  | _ :: _ :: _ :: _ :: _ :: _, [_, _], hlen, _, _ => simp at hlen
  | _ :: _ :: _ :: _ :: _ :: _, [_, _, _], hlen, _, _ => simp at hlen
  | _ :: _ :: _ :: _ :: _ :: _, [_, _, _, _], hlen, _, _ => simp at hlen
  | ct :: r1 :: r2 :: l1 :: l2 :: hs, ct' :: r1' :: r2' :: l1' :: l2' :: hs', hlen, _, hoff =>
    have e0 := hoff 0 (by omega)
    have e1 := hoff 1 (by omega)
    have e2 := hoff 2 (by omega)
    simp only [List.getElem?_cons_zero, List.getElem?_cons_succ, Option.some.injEq]
      at e0 e1 e2
    subst e0 e1 e2
    rw [parseSegment_cons, parseSegment_cons]
    split
    · rfl
    split
    · rfl
    apply parseHandshake_skip _ _ _ (byteAt (ct :: r1 :: r2 :: l1 :: l2 :: hs) 43)
    · intro x hx
      simp only [byteAt, List.getD_eq_getElem?_getD, List.getElem?_cons_succ, hx,
        Option.getD_some]
    · simpa using hlen
    · intro i hi
      have := hoff (i + 5) (by omega)
      simpa only [List.getElem?_cons_succ] using this

/-- Witness of C16: two records that differ in the record length, in all random bytes, in the
session-id content and in the compression-method selector. -/
theorem C16_skipped_fields_ignored_witness :
    ComputeJA3SFromSegment
        (serverHelloRecord 771 50 771 (List.replicate 32 0) [1, 2] 4865 0 [(43, [3, 4])])
      = ComputeJA3SFromSegment
        (serverHelloRecord 771 999 771 (List.replicate 32 9) [7, 8] 4865 5 [(43, [3, 4])]) :=
  C16_skipped_fields_ignored
    (serverHelloRecord 771 50 771 (List.replicate 32 0) [1, 2] 4865 0 [(43, [3, 4])])
    (serverHelloRecord 771 999 771 (List.replicate 32 9) [7, 8] 4865 5 [(43, [3, 4])])
    (by decide) (by decide)
end JA3
